import Mathlib

/-!
Verification of the weighted round-robin balancer and the dual-mode
forwarder of this reverse-proxy core.

The Lean definitions below are a shallow embedding of the Go source:

* `roundrobin` package: `server`, `routing`, `RoundRobin` (here `RRState`),
  `StickySession.GetBackend`, `RoundRobin.ServeHTTP` (backend selection and
  URL rewrite), `NextServer`, `UpsertServer`, `RemoveServer`, `ServerWeight`,
  `maxWeight`, `weightGcd`, `gcd`, `sameURL`.
* `forward` package: `isWebsocketRequest`, the option setters and `New`,
  and the nil-metrics dereference on both serve paths.

Machine integers (`int`, `uint32`) are modeled as `Int`/`Nat`; none of the
verified paths can overflow 64-bit integers for the inputs considered.
Go maps from `uint32` to `*server` are modeled as association lists with
insert-replaces semantics.  Pointer aliasing between the `servers` slice and
the `stickyServers` map is modeled by value copies; all theorems below only
exercise states where the two views agree, as Go's own construction does.
The mutex-protected in-place mutation is modeled by explicit state passing.
`NextServer`'s unbounded `for` loop is modeled with explicit fuel:
`none` means the fuel ran out (the Go loop has not yet returned).
-/

namespace OxyRR

/-- `net/url.URL`, restricted to the fields the balancer reads or writes
(`Scheme`, `Host`, `Path`, `RawPath`, `RawQuery`, `Fragment`). -/
structure URL where
  scheme : String := ""
  host : String := ""
  path : String := ""
  rawPath : String := ""
  rawQuery : String := ""
  fragment : String := ""
deriving DecidableEq, Repr

/-- `roundrobin.routing`: optional descriptor attached to a server. -/
structure Routing where
  stickyRoutingOnly : Bool
  status : String
  groupID : Nat
  hmacKeys : List (List Nat)
deriving DecidableEq, Repr

/-- `roundrobin.server`. -/
structure Server where
  url : URL
  weight : Int := 0
  pathRewrite : Bool := false
  routing : Option Routing := none
deriving DecidableEq, Repr

/-- `roundrobin.sameURL`: componentwise equality of path, host and scheme. -/
def sameURL (a b : URL) : Bool :=
  a.path == b.path && a.host == b.host && a.scheme == b.scheme

/-- `roundrobin.defaultWeight`. -/
def defaultWeight : Int := 1

/-- The mutable fields of `roundrobin.RoundRobin` (the handler, error handler
and mutex are external capabilities; `ss` keeps only the cookie name of the
optional `StickySession`). -/
structure RRState where
  servers : List Server
  index : Int
  currentWeight : Int
  stickyServers : List (Nat × Server)
  ss : Option String
deriving DecidableEq, Repr

/-- `roundrobin.New` with an optional `EnableStickySession` option. -/
def newRoundRobin (ss : Option String) : RRState :=
  { servers := [], index := -1, currentWeight := 0, stickyServers := [], ss := ss }

/-- Association-list lookup, modeling a read of the Go map
`stickyServers[gid]` (missing key yields the zero value `nil`). -/
def lookupSticky : List (Nat × Server) → Nat → Option Server
  | [], _ => none
  | (k, v) :: rest, g => if k = g then some v else lookupSticky rest g

/-- Association-list insert-or-replace, modeling `stickyServers[gid] = srv`. -/
def insertSticky : List (Nat × Server) → Nat → Server → List (Nat × Server)
  | [], k, v => [(k, v)]
  | (k', v') :: rest, k, v =>
    if k' = k then (k, v) :: rest else (k', v') :: insertSticky rest k v

/-- Association-list removal, modeling `delete(stickyServers, gid)`. -/
def eraseSticky (m : List (Nat × Server)) (k : Nat) : List (Nat × Server) :=
  m.filter (fun p => p.1 != k)

/-- `gcd` from the roundrobin package: `for b != 0 { a, b = b, a%b }; return a`,
with Go's truncated `%` (`Int.tmod`).  The loop is modeled with the fuel
`b.natAbs + 1`, which the magnitude bound on `tmod` makes sufficient, so the
fallback branch at fuel 0 is never reached. -/
def goGcdAux : Nat → Int → Int → Int
  | 0, a, _ => a
  | n + 1, a, b => if b = 0 then a else goGcdAux n b (a.tmod b)

/-- Entry point of the Go `gcd` loop. -/
def goGcd (a b : Int) : Int :=
  goGcdAux (b.natAbs + 1) a b

/-- `RoundRobin.weightGcd`. -/
def weightGcd (servers : List Server) : Int :=
  servers.foldl (fun d s => if d = -1 then s.weight else goGcd d s.weight) (-1)

/-- `RoundRobin.maxWeight`. -/
def maxWeight (servers : List Server) : Int :=
  servers.foldl (fun m s => if m < s.weight then s.weight else m) (-1)

/-- Iterator part of the pool state inside the `NextServer` loop. -/
structure IterState where
  index : Int
  currentWeight : Int
deriving DecidableEq, Repr

/-- What one iteration of the `NextServer` loop can produce. -/
inductive NextOut where
  | ok (s : Server)
  | errZeroWeight
  | panicked
deriving DecidableEq, Repr

/-- Either the loop body returned, or it continues with an updated state. -/
inductive StepOut where
  | ret (r : NextOut) (st : IterState)
  | cont (st : IterState)
deriving DecidableEq, Repr

/-- The tail of the loop body: `srv := r.servers[r.index]` followed by
`if srv.weight >= r.currentWeight { return srv, nil }`.  A position outside
the slice bounds is a Go runtime panic. -/
def checkSrv (servers : List Server) (st : IterState) : StepOut :=
  if h : 0 ≤ st.index ∧ st.index.toNat < servers.length then
    let srv := servers.get ⟨st.index.toNat, h.2⟩
    if st.currentWeight ≤ srv.weight then .ret (.ok srv) st else .cont st
  else .ret .panicked st

/-- One iteration of the `NextServer` selection loop. -/
def nextStep (servers : List Server) (g m : Int) (st : IterState) : StepOut :=
  let idx := (st.index + 1).tmod (servers.length : Int)
  if idx = 0 then
    let cw := st.currentWeight - g
    if cw ≤ 0 then
      if m = 0 then .ret .errZeroWeight ⟨idx, m⟩
      else checkSrv servers ⟨idx, m⟩
    else checkSrv servers ⟨idx, cw⟩
  else checkSrv servers ⟨idx, st.currentWeight⟩

/-- The `NextServer` loop, iterated with fuel; `none` = still looping. -/
def nextLoop (servers : List Server) (g m : Int) : Nat → IterState → Option (NextOut × IterState)
  | 0, _ => none
  | fuel + 1, st =>
    match nextStep servers g m st with
    | .ret r st' => some (r, st')
    | .cont st' => nextLoop servers g m fuel st'

/-- Result of `RoundRobin.NextServer`. -/
inductive NextServerResult where
  | ok (s : Server)
  | errEmptyPool
  | errZeroWeight
  | panicked
deriving DecidableEq, Repr

/-- `RoundRobin.NextServer`.  `errEmptyPool` is Go's `no servers in the pool`
error and `errZeroWeight` its `all servers have 0 weight` error. -/
def nextServer (fuel : Nat) (r : RRState) : Option (NextServerResult × RRState) :=
  if r.servers.length = 0 then some (.errEmptyPool, r)
  else
    let g := weightGcd r.servers
    let m := maxWeight r.servers
    match nextLoop r.servers g m fuel ⟨r.index, r.currentWeight⟩ with
    | none => none
    | some (.ok s, st) => some (.ok s, { r with index := st.index, currentWeight := st.currentWeight })
    | some (.errZeroWeight, st) =>
      some (.errZeroWeight, { r with index := st.index, currentWeight := st.currentWeight })
    | some (.panicked, st) =>
      some (.panicked, { r with index := st.index, currentWeight := st.currentWeight })

/-- `RoundRobin.findServerByURL`: first server matching by `sameURL`,
with its position. -/
def findServerByURL : List Server → URL → Option (Server × Nat)
  | [], _ => none
  | s :: rest, u =>
    if sameURL u s.url then some (s, 0)
    else (findServerByURL rest u).map (fun p => (p.1, p.2 + 1))

/-- Pool errors, in place of the Go `error` strings:
`nilURL` = server URL can not be nil, `negativeWeight` = Weight should be
at least 0, `notFound` = server not found. -/
inductive PoolErr where
  | nilURL
  | negativeWeight
  | notFound
deriving DecidableEq, Repr

/-- Decidable equality for `Except` results, so that concrete runs of the
pool operations can be checked by evaluation. -/
instance {ε α : Type} [DecidableEq ε] [DecidableEq α] : DecidableEq (Except ε α) := fun a b =>
  match a, b with
  | .error e1, .error e2 =>
    if h : e1 = e2 then isTrue (by rw [h]) else isFalse (by intro hc; cases hc; exact h rfl)
  | .ok x, .ok y =>
    if h : x = y then isTrue (by rw [h]) else isFalse (by intro hc; cases hc; exact h rfl)
  | .error _, .ok _ => isFalse (by intro hc; cases hc)
  | .ok _, .error _ => isFalse (by intro hc; cases hc)

/-- The three `ServerOption` functional arguments: `Weight`, `PathRewrite`
and `EnableJSID`. -/
inductive ServerOption where
  | weight (w : Int)
  | pathRewrite (r : Bool)
  | enableJSID (status : String) (groupID : Nat) (hmacKeys : List (List Nat))
      (stickyRoutingOnly : Bool)
deriving DecidableEq, Repr

/-- Application of one `ServerOption` to a server. -/
def applyOption (s : Server) : ServerOption → Except PoolErr Server
  | .weight w => if w < 0 then .error .negativeWeight else .ok { s with weight := w }
  | .pathRewrite r => .ok { s with pathRewrite := r }
  | .enableJSID status gid keys sro =>
    .ok { s with routing := some ⟨sro, status, gid, keys⟩ }

/-- The option loop of the new-server path of `UpsertServer`: on the first
failing option the fresh server is discarded. -/
def applyOptions (s : Server) : List ServerOption → Except PoolErr Server
  | [] => .ok s
  | o :: os =>
    match applyOption s o with
    | .error e => .error e
    | .ok s' => applyOptions s' os

/-- The option loop of the existing-server path of `UpsertServer`: Go applies
the options to the live server through a pointer, so a failing option leaves
the mutations of the previous options in place. -/
def applyOptsInPlace (s : Server) : List ServerOption → Server × Option PoolErr
  | [] => (s, none)
  | o :: os =>
    match applyOption s o with
    | .error e => (s, some e)
    | .ok s' => applyOptsInPlace s' os

/-- `RoundRobin.UpsertServer` (the URL argument is a Go pointer, hence
`Option URL`; `resetState` is inlined as the two iterator-field writes). -/
def upsertServer (r : RRState) (u : Option URL) (options : List ServerOption) :
    Except PoolErr Unit × RRState :=
  match u with
  | none => (.error .nilURL, r)
  | some u =>
    match findServerByURL r.servers u with
    | some (s, i) =>
      match applyOptsInPlace s options with
      | (s', some e) => (.error e, { r with servers := r.servers.set i s' })
      | (s', none) =>
        (.ok (), { r with servers := r.servers.set i s', index := -1, currentWeight := 0 })
    | none =>
      match applyOptions { url := u } options with
      | .error e => (.error e, r)
      | .ok srv0 =>
        let srv := if srv0.weight = 0 then { srv0 with weight := defaultWeight } else srv0
        match srv.routing with
        | some rt =>
          let r1 := { r with stickyServers := insertSticky r.stickyServers rt.groupID srv }
          if rt.status = "FULL" ∨ rt.stickyRoutingOnly = false then
            (.ok (), { r1 with servers := r1.servers ++ [srv], index := -1, currentWeight := 0 })
          else (.ok (), r1)
        | none =>
          (.ok (), { r with servers := r.servers ++ [srv], index := -1, currentWeight := 0 })

/-- `RoundRobin.RemoveServer`. -/
def removeServer (r : RRState) (u : URL) : Except PoolErr Unit × RRState :=
  match findServerByURL r.servers u with
  | none => (.error .notFound, r)
  | some (e, i) =>
    let servers' := r.servers.take i ++ r.servers.drop (i + 1)
    let sticky' :=
      match e.routing with
      | some rt => eraseSticky r.stickyServers rt.groupID
      | none => r.stickyServers
    (.ok (),
      { r with servers := servers', stickyServers := sticky', index := -1, currentWeight := 0 })

/-- `RoundRobin.ServerWeight`. -/
def serverWeight (r : RRState) (u : URL) : Int × Bool :=
  match findServerByURL r.servers u with
  | some (s, _) => (s.weight, true)
  | none => (-1, false)

/-- The segment written `..` in a path. -/
def dotdot : List Char := ['.', '.']

/-- One segment of Go `path.Clean`'s rewrite loop, acting on the stack of
output segments (head = most recently emitted).  Empty and `.` segments are
dropped; `..` backtracks when an emitted segment is available (in the Go
buffer: `out.w > dotdot`; since `..` segments are only ever emitted when
nothing is poppable, the buffer has a poppable segment exactly when the stack
is nonempty with a head other than `..`), is dropped at the root, and is
emitted for an unrooted path with nothing to pop; other segments are emitted. -/
def cleanStep (rooted : Bool) (stack : List (List Char)) (seg : List Char) : List (List Char) :=
  if seg = [] ∨ seg = ['.'] then stack
  else if seg = dotdot then
    match stack with
    | [] => if rooted then [] else [dotdot]
    | top :: rest => if rooted = false ∧ top = dotdot then dotdot :: top :: rest else rest
  else seg :: stack

/-- Rejoin the emitted segments with `/` separators. -/
def joinSegs : List (List Char) → List Char
  | [] => []
  | [e] => e
  | e :: rest => e ++ '/' :: joinSegs rest

/-- Go `path.Clean` (lexical normalization): split on `/`, process the
segments, reassemble.  The empty path cleans to `.`; a rooted path keeps its
leading `/`; an unrooted path whose segments all cancel cleans to `.`. -/
def goPathClean (p : String) : String :=
  if p.data = [] then "."
  else
    let rooted := p.data.head? = some '/'
    let stack := ((p.data.splitOn '/').foldl (cleanStep rooted) []).reverse
    if rooted then ⟨'/' :: joinSegs stack⟩
    else if stack = [] then "." else ⟨joinSegs stack⟩

/-- No two adjacent slashes anywhere in the character sequence. -/
def noDoubleSlash : List Char → Bool
  | [] => true
  | [_] => true
  | a :: b :: rest => !(a == '/' && b == '/') && noDoubleSlash (b :: rest)

/-- Go `path.Join` on two elements: drop empty elements, join the rest with
`/`, and `Clean` the result; all-empty input yields the empty string. -/
def goPathJoin (a b : String) : String :=
  if a.data = [] then (if b.data = [] then "" else goPathClean b)
  else if b.data = [] then goPathClean a
  else goPathClean ⟨a.data ++ '/' :: b.data⟩

/-- Go `strings.HasSuffix`. -/
def goHasSuffix (s suffix : String) : Bool :=
  suffix.data.isSuffixOf s.data

/-- Specification-side reading of the balancer's path rewrite: the lexical
join of the backend path and the incoming path, with a trailing slash of the
incoming path preserved in the joined result. -/
def specJoinPreserveSlash (srvPath reqPath : String) : String :=
  let j := goPathJoin srvPath reqPath
  if goHasSuffix reqPath "/" && !goHasSuffix j "/" then j ++ "/" else j

/-- The `pathRewrite` block of `RoundRobin.ServeHTTP`: join the backend path
and the request path, preserving a trailing slash of the request path. -/
def rewritePath (srvPath reqPath : String) : String :=
  let srvPath2 := if goHasSuffix srvPath "/" then srvPath ++ "/" else srvPath
  let cleanPath := goPathJoin srvPath2 reqPath
  if goHasSuffix reqPath "/" && !goHasSuffix cleanPath "/" then cleanPath ++ "/"
  else cleanPath

/-- The signed-token service consumed from request headers
(`jsid.SignedJSIDFromHeader` then `Retrieve`/`Verify`), kept opaque:
a group id and a verification oracle over HMAC keys. -/
structure SignedJSID where
  groupID : Nat
  verify : List Nat → Bool

/-- An incoming request, restricted to what backend selection reads: the URL,
the cookies (values already run through `url.Parse`, whose failure is the
`error` case), and the outcome of the external signed-token parse (`sj, err`). -/
structure Request where
  url : URL
  cookies : List (String × Except Unit URL)
  jsid : Option SignedJSID := none
  jsidErr : Option Unit := none

/-- `StickySession.GetBackend` with `isBackendAlive` inlined: read the
configured cookie (`.ok none` when absent), parse its value, and return the
first pool server with the same URL, if any. -/
def getBackend (cookiename : String) (req : Request) (servers : List Server) :
    Except Unit (Option Server) :=
  match req.cookies.find? (fun c => c.1 == cookiename) with
  | none => .ok none
  | some (_, .error e) => .error e
  | some (_, .ok u) =>
    match servers.find? (fun s => sameURL u s.url) with
    | some srv => .ok (some srv)
    | none => .ok none

/-- How `RoundRobin.ServeHTTP` disposes of a request: delegated to the next
handler with the selected backend and the rewritten URL, handed to the error
handler (cookie error), answered `503 Service Unavailable` (`NextServer`
failed), or a nil-pointer panic (`srv` nil at the dereference). -/
inductive ServeOutcome where
  | forwarded (srv : Server) (u : URL)
  | errorHandled
  | unavailable
  | panicked
deriving DecidableEq, Repr

/-- The URL rewrite of `ServeHTTP`: copy the backend URL, restore the request
path, raw path, query and fragment, then apply the `pathRewrite` join. -/
def rewriteURL (srv : Server) (req : Request) : URL :=
  let base : URL :=
    { srv.url with path := req.url.path, rawPath := req.url.rawPath,
                   rawQuery := req.url.rawQuery, fragment := req.url.fragment }
  if srv.pathRewrite then { base with path := rewritePath srv.url.path req.url.path }
  else base

/-- Tail of `RoundRobin.ServeHTTP` after stickiness resolution: an unstuck
request falls through to `NextServer` (503 on its errors); a stuck request is
forwarded to `srv`, which Go dereferences without a nil check
(`utils.CopyURL(srv.url)`), so a stuck nil `srv` is a runtime panic. -/
def serveFinish (fuel : Nat) (r : RRState) (req : Request) (srv : Option Server)
    (stuck : Bool) : Option (ServeOutcome × RRState) :=
  if stuck then
    match srv with
    | none => some (.panicked, r)
    | some s => some (.forwarded s (rewriteURL s req), r)
  else
    match nextServer fuel r with
    | none => none
    | some (.ok s, r') => some (.forwarded s (rewriteURL s req), r')
    | some (.errEmptyPool, r') => some (.unavailable, r')
    | some (.errZeroWeight, r') => some (.unavailable, r')
    | some (.panicked, r') => some (.panicked, r')

/-- `RoundRobin.ServeHTTP`, backend selection and URL rewrite (the
observational `UpstreamContext` writes and the delegation to the next handler
carry no selection state and are omitted).  Cookie stickiness is resolved
first; a present signed token then unconditionally overwrites `srv` with the
group lookup (`srv = r.stickyServers[gid]`), the verification loop
(`srv.routing.hmacKeys`, a nil-routing panic in Go) only affecting the
`stuck` flag. -/
def serveHTTP (fuel : Nat) (r : RRState) (req : Request) : Option (ServeOutcome × RRState) :=
  let cookieStep : Except Unit (Option Server × Bool) :=
    match r.ss with
    | none => .ok (none, false)
    | some name =>
      match getBackend name req r.servers with
      | .error e => .error e
      | .ok (some s) => .ok (some s, true)
      | .ok none => .ok (none, false)
  match cookieStep with
  | .error _ => some (.errorHandled, r)
  | .ok (srv0, stuck0) =>
    match req.jsid with
    | none => serveFinish fuel r req srv0 stuck0
    | some sj =>
      match lookupSticky r.stickyServers sj.groupID with
      | none => serveFinish fuel r req none stuck0
      | some s =>
        match s.routing with
        | none => some (.panicked, r)
        | some rt => serveFinish fuel r req (some s) (stuck0 || rt.hmacKeys.any sj.verify)

end OxyRR

namespace OxyFwd

/-- Go `unicode.IsSpace` restricted to the ASCII range, which is all the
claims exercise (the full Unicode table is immaterial here because the same
predicate is used on both sides of every statement). -/
def goIsSpace (c : Char) : Bool :=
  c = ' ' ∨ c = '\t' ∨ c = '\n' ∨ c = Char.ofNat 11 ∨ c = Char.ofNat 12 ∨ c = '\r'

/-- Go `strings.TrimSpace` (ASCII range, see `goIsSpace`). -/
def goTrimSpace (l : List Char) : List Char :=
  ((l.dropWhile goIsSpace).reverse.dropWhile goIsSpace).reverse

/-- Go `strings.ToLower` restricted to ASCII. -/
def goToLower (c : Char) : Char :=
  if 'A' ≤ c ∧ c ≤ 'Z' then Char.ofNat (c.toNat + 32) else c

/-- The `containsHeader` closure of `forward.isWebsocketRequest`: split the
header value on commas and compare each item, lowercased and trimmed,
against `value`. -/
def containsHeader (header : String) (value : String) : Bool :=
  (header.data.splitOn ',').any (fun item => (goTrimSpace item).map goToLower == value.data)

/-- `forward.isWebsocketRequest`, as a function of the request's
`Connection` and `Upgrade` header values (Go `Header.Get` returns the first
value, or the empty string when the header is absent). -/
def isWebsocketRequest (connection upgrade : String) : Bool :=
  containsHeader connection "upgrade" && containsHeader upgrade "websocket"

/-- The metrics context built by `Meters` via `NewMetricsContext`; registry
and tags are opaque external handles. -/
structure MetricsContext where
  registry : Nat
  tags : List (String × String)
deriving DecidableEq, Repr

/-- The option setters of the `forward` package.  The capability arguments
(transport, dialer, rewriters, error handler, logger) are opaque handles. -/
inductive OptSetter where
  | passHostHeader (b : Bool)
  | meters (registry : Nat) (tags : List (String × String))
  | streamResponse (b : Bool)
  | roundTripper (handle : Nat)
  | websocketDial (handle : Nat)
  | rewriter (handle : Nat)
  | websocketRewriter (handle : Nat)
  | errorHandler (handle : Nat)
  | logger (handle : Nat)
deriving DecidableEq, Repr

/-- `forward.Forwarder` with its embedded `httpForwarder`,
`websocketForwarder` and `handlerContext` flattened; `metrics` is the
`handlerContext.metrics` pointer, nil unless `Meters` ran. -/
structure Forwarder where
  metrics : Option MetricsContext := none
  passHost : Bool := false
  streamResponse : Bool := false
  roundTripper : Option Nat := none
  dial : Option Nat := none
  rewriter : Option Nat := none
  wsRewriter : Option Nat := none
  errHandler : Option Nat := none
  log : Option Nat := none
deriving DecidableEq, Repr

/-- Application of one option setter (each Go setter returns a nil error). -/
def applySetter (f : Forwarder) : OptSetter → Forwarder
  | .passHostHeader b => { f with passHost := b }
  | .meters registry tags => { f with metrics := some ⟨registry, tags⟩ }
  | .streamResponse b => { f with streamResponse := b }
  | .roundTripper h => { f with roundTripper := some h }
  | .websocketDial h => { f with dial := some h }
  | .rewriter h => { f with rewriter := some h }
  | .websocketRewriter h => { f with wsRewriter := some h }
  | .errorHandler h => { f with errHandler := some h }
  | .logger h => { f with log := some h }

/-- `forward.New`: apply the setters, then fill the defaulted capabilities
(transport, dialer, header rewriter, logger, error handler); `metrics` has
no default. -/
def newForwarder (setters : List OptSetter) : Forwarder :=
  let f := setters.foldl applySetter {}
  let f := if f.roundTripper = none then { f with roundTripper := some 0 } else f
  let f := if f.dial = none then { f with dial := some 0 } else f
  let f := if f.rewriter = none then { f with rewriter := some 0 } else f
  let f := if f.log = none then { f with log := some 0 } else f
  if f.errHandler = none then { f with errHandler := some 0 } else f

/-- Fate of a request inside either serve path of the forwarder, as far as
the metrics dereference: both `httpForwarder.serveHTTP` and
`websocketForwarder.serveHTTP` begin with `ctx.metrics.httpInit()` resp.
`ctx.metrics.wsInit()`, a method call on the `metrics` pointer that reads
its fields, so a nil `metrics` is a nil-pointer panic before any forwarding;
the rest of the body (transport round-trip resp. hijack and pump) is
abstracted as `reachedForwarding`. -/
inductive FwdOutcome where
  | panicNilMetrics
  | reachedForwarding
deriving DecidableEq, Repr

/-- `httpForwarder.serveHTTP`, up to the unconditional metrics dereference. -/
def httpServe (f : Forwarder) : FwdOutcome :=
  match f.metrics with
  | none => .panicNilMetrics
  | some _ => .reachedForwarding

/-- `websocketForwarder.serveHTTP`, up to the unconditional metrics
dereference. -/
def wsServe (f : Forwarder) : FwdOutcome :=
  match f.metrics with
  | none => .panicNilMetrics
  | some _ => .reachedForwarding

/-- `Forwarder.ServeHTTP`: dispatch on the WebSocket-upgrade predicate. -/
def forwarderServeHTTP (f : Forwarder) (connection upgrade : String) : FwdOutcome :=
  if isWebsocketRequest connection upgrade then wsServe f else httpServe f

/-- Whether an option setter is the `Meters` option. -/
def isMeters : OptSetter → Bool
  | .meters _ _ => true
  | _ => false

/-- Specification-side reading of §4.5: case-insensitive equality of two
character sequences. -/
def specCaseInsensitiveEq (a b : List Char) : Prop :=
  a.map goToLower = b.map goToLower

/-- Specification-side reading of §4.5: the header value contains a
comma-separated item equal, case-insensitively after trimming whitespace,
to `value`. -/
def specHeaderHasItem (header : String) (value : String) : Prop :=
  ∃ item ∈ header.data.splitOn ',', specCaseInsensitiveEq (goTrimSpace item) value.data


end OxyFwd

open OxyRR OxyFwd

/-- Concrete backend URL `http://a/`. -/
def urlA : URL := { scheme := "http", host := "a", path := "/" }

/-- Concrete backend URL `http://b/`. -/
def urlB : URL := { scheme := "http", host := "b", path := "/" }

/-- Concrete backend URL `http://c/`. -/
def urlC : URL := { scheme := "http", host := "c", path := "/" }

/-- A pool with backends A, B, C upserted in that order with weights
1, 2 and 3 (iterator freshly reset by the last upsert). -/
def pool123 : RRState :=
  (upsertServer (upsertServer (upsertServer (newRoundRobin none)
    (some urlA) [.weight 1]).2 (some urlB) [.weight 2]).2 (some urlC) [.weight 3]).2

/-- Results of `n` consecutive `NextServer` calls, each with the given fuel,
threading the pool state. -/
def nextTrace (fuel : Nat) : Nat → RRState → List (Option NextServerResult)
  | 0, _ => []
  | n + 1, r =>
    match nextServer fuel r with
    | none => [none]
    | some (out, r') => some out :: nextTrace fuel n r'

/-- The registered backend record for `http://a/` with weight 1. -/
def srvA1 : Server := { url := urlA, weight := 1 }

/-- The registered backend record for `http://b/` with weight 2. -/
def srvB2 : Server := { url := urlB, weight := 2 }

/-- The registered backend record for `http://c/` with weight 3. -/
def srvC3 : Server := { url := urlC, weight := 3 }

/-- Whether an `UpsertServer` call on this state would take the new-server
path and produce a group-only backend (routing present, `status ≠ FULL`,
`stickyRoutingOnly`), the one insertion that skips `resetState`. -/
def groupOnlyInsert (r : RRState) (u : URL) (options : List ServerOption) : Bool :=
  match findServerByURL r.servers u with
  | some _ => false
  | none =>
    match applyOptions { url := u } options with
    | .error _ => false
    | .ok srv0 =>
      match srv0.routing with
      | none => false
      | some rt => rt.status != "FULL" && rt.stickyRoutingOnly

/-- Whether a server joins the round-robin rotation on insertion
(no routing, or `status = FULL`, or not sticky-routing-only). -/
def rotEligible (s : Server) : Bool :=
  match s.routing with
  | none => true
  | some rt => rt.status == "FULL" || !rt.stickyRoutingOnly

/-- Number of pool entries matching a URL by `sameURL`. -/
def countURL (u : URL) (l : List Server) : Nat :=
  (l.filter (fun s => sameURL u s.url)).length

/-- Pool holding only backend A with default weight 1. -/
def poolA1 : RRState := (upsertServer (newRoundRobin none) (some urlA) []).2

/-- `poolA1` after one `NextServer` call: the iterator now reads
`index = 0`, `currentWeight = 1`. -/
def poolA1stepped : RRState :=
  match nextServer 4 poolA1 with
  | some (_, r) => r
  | none => poolA1

/-- Pool with backends A and B both updated to weight 0 (reachable through
the API: insert with default weight 1, then upsert the same URL with
`Weight(0)`, which the existing-server path applies verbatim). -/
def poolZeroZero : RRState :=
  (upsertServer (upsertServer (upsertServer (upsertServer (newRoundRobin none)
    (some urlA) []).2 (some urlA) [.weight 0]).2
    (some urlB) []).2 (some urlB) [.weight 0]).2

/-- A pool state with a single weight-0 backend and the iterator at
`(index, currentWeight) = (0, 1)`: from here the `NextServer` loop cycles
without ever returning, since the wrap step subtracts a gcd of 0 and the
positive `currentWeight` never resets. -/
def poolStuck : RRState :=
  { servers := [{ url := urlA, weight := 0 }], index := 0, currentWeight := 1,
    stickyServers := [], ss := none }

/-- Sticky-session pool for the C1 counterexample: backend A plain, backend
B with `EnableJSID("FULL", 7, keys, false)`, so B is both in the rotation
and in the group map under id 7. -/
def poolSticky : RRState :=
  (upsertServer (upsertServer (newRoundRobin (some "sess"))
    (some urlA) []).2 (some urlB) [.enableJSID "FULL" 7 [[1]] false]).2

/-- A request whose `sess` cookie points at backend A and that carries a
signed token with group id 7 whose verification succeeds. -/
def reqCookieAndToken : Request :=
  { url := { scheme := "http", host := "front", path := "/x" },
    cookies := [("sess", .ok urlA)],
    jsid := some { groupID := 7, verify := fun _ => true } }

/-- A request whose `sess` cookie points at backend A and that carries no
signed token. -/
def reqCookieOnly : Request :=
  { url := { scheme := "http", host := "front", path := "/x" },
    cookies := [("sess", .ok urlA)] }

/-- The backend record registered for B in `poolSticky`: weight 1 and
routing `("FULL", 7, keys, stickyRoutingOnly = false)`. -/
def srvBfull : Server :=
  { url := urlB, weight := 1,
    routing := some { stickyRoutingOnly := false, status := "FULL", groupID := 7,
                      hmacKeys := [[1]] } }

/-- The `NextServer` loop started at `st` returns a backend under some
finite fuel. -/
def loopFindsBackend (servers : List Server) (g m : Int) (st : IterState) : Prop :=
  ∃ fuel s st', nextLoop servers g m fuel st = some (.ok s, st')

/-- A rewrite-enabled backend at `http://a/api`. -/
def srvRw : Server :=
  { url := { scheme := "http", host := "a", path := "/api" }, weight := 1,
    pathRewrite := true }

/-- Pool holding only the rewrite-enabled backend `srvRw`, built by one
upsert with `PathRewrite(true)` and `Weight(1)`. -/
def poolRw : RRState :=
  (upsertServer (newRoundRobin none) (some srvRw.url) [.pathRewrite true, .weight 1]).2

/-- A request for `/v1//x/../y/` (duplicate slash, a `..` segment and a
trailing slash) with a query string. -/
def reqRw : Request :=
  { url := { scheme := "http", host := "front", path := "/v1//x/../y/",
             rawQuery := "q=1" }, cookies := [] }

/-- `poolRw` after one `NextServer` call: the iterator reads `(0, 1)`. -/
def poolRwStepped : RRState :=
  match nextServer 4 poolRw with
  | some (_, r) => r
  | none => poolRw

theorem sameURL_refl (u : URL) : sameURL u u = true := by
  simp [sameURL]

theorem applyOption_url {s s' : Server} {o : ServerOption} (h : applyOption s o = .ok s') :
    s'.url = s.url := by
  cases o with
  | weight w =>
    by_cases hw : w < 0
    · simp [applyOption, hw] at h
    · simp [applyOption, hw] at h
      rw [← h]
  | pathRewrite b =>
    simp [applyOption] at h
    rw [← h]
  | enableJSID status gid keys sro =>
    simp [applyOption] at h
    rw [← h]

theorem applyOptions_url :
    ∀ (options : List ServerOption) (s s' : Server),
      applyOptions s options = .ok s' → s'.url = s.url := by
  intro options
  induction options with
  | nil => intro s s' h; cases h; rfl
  | cons o os ih =>
    intro s s' h
    unfold applyOptions at h
    cases ho : applyOption s o with
    | error e => rw [ho] at h; exact absurd h (by simp)
    | ok s1 => rw [ho] at h; rw [ih s1 s' h, applyOption_url ho]

theorem applyOptsInPlace_url :
    ∀ (options : List ServerOption) (s : Server),
      (applyOptsInPlace s options).1.url = s.url := by
  intro options
  induction options with
  | nil => intro s; rfl
  | cons o os ih =>
    intro s
    unfold applyOptsInPlace
    cases ho : applyOption s o with
    | error e => rfl
    | ok s1 => simpa [applyOption_url ho] using ih s1

theorem findServerByURL_eq_none :
    ∀ (l : List Server) (u : URL),
      findServerByURL l u = none ↔ ∀ s ∈ l, sameURL u s.url = false := by
  intro l u
  induction l with
  | nil => simp [findServerByURL]
  | cons s rest ih =>
    unfold findServerByURL
    cases hs : sameURL u s.url with
    | true =>
      simp only [if_true, List.mem_cons]
      constructor
      · intro h; exact absurd h (by simp)
      · intro h; exact absurd (h s (Or.inl rfl)) (by simp [hs])
    | false =>
      simp only [Bool.false_eq_true, if_false, Option.map_eq_none', List.mem_cons, ih]
      constructor
      · rintro h x (rfl | hx)
        · exact hs
        · exact h x hx
      · intro h x hx
        exact h x (Or.inr hx)

theorem findServerByURL_append_singleton {l : List Server} {u : URL} (x : Server)
    (hnone : findServerByURL l u = none) (hx : sameURL u x.url = true) :
    findServerByURL (l ++ [x]) u = some (x, l.length) := by
  induction l with
  | nil => simp [findServerByURL, hx]
  | cons s rest ih =>
    unfold findServerByURL at hnone ⊢
    cases hs : sameURL u s.url with
    | true => rw [hs] at hnone; exact absurd hnone (by simp)
    | false =>
      rw [hs] at hnone
      simp only [Bool.false_eq_true, if_false, Option.map_eq_none'] at hnone
      simp only [List.cons_append, hs, Bool.false_eq_true, if_false, ih hnone,
        Option.map_some', List.length_cons]

theorem findServerByURL_set :
    ∀ (l : List Server) (i : Nat) {u : URL} {s : Server} (s' : Server),
      findServerByURL l u = some (s, i) → sameURL u s'.url = sameURL u s.url →
      findServerByURL (l.set i s') u = some (s', i) := by
  intro l
  induction l with
  | nil => intro i u s s' h; exact absurd h (by simp [findServerByURL])
  | cons hd rest ih =>
    intro i u s s' h hsame
    unfold findServerByURL at h
    cases hhd : sameURL u hd.url with
    | true =>
      rw [hhd] at h
      simp only [if_true] at h
      obtain ⟨rfl, rfl⟩ : s = hd ∧ i = 0 := by
        constructor <;> · cases h; rfl
      rw [hhd] at hsame
      simp [List.set, findServerByURL, hsame]
    | false =>
      rw [hhd] at h
      simp only [Bool.false_eq_true, if_false] at h
      cases hfr : findServerByURL rest u with
      | none => rw [hfr] at h; exact absurd h (by simp)
      | some p =>
        obtain ⟨ps, pj⟩ := p
        rw [hfr] at h
        simp only [Option.map_some'] at h
        obtain ⟨rfl, rfl⟩ : ps = s ∧ pj + 1 = i := by
          constructor <;> · cases h; rfl
        simp [List.set, findServerByURL, hhd, ih pj s' hfr hsame]

theorem countURL_append (u : URL) (l1 l2 : List Server) :
    countURL u (l1 ++ l2) = countURL u l1 + countURL u l2 := by
  simp [countURL, List.filter_append]

theorem countURL_eq_zero {u : URL} {l : List Server}
    (h : ∀ s ∈ l, sameURL u s.url = false) : countURL u l = 0 := by
  unfold countURL
  rw [List.length_eq_zero, List.filter_eq_nil_iff]
  intro s hs
  simp [h s hs]

theorem countURL_set :
    ∀ (l : List Server) (i : Nat) {u : URL} {s : Server} (s' : Server),
      findServerByURL l u = some (s, i) → sameURL u s'.url = sameURL u s.url →
      countURL u (l.set i s') = countURL u l := by
  intro l
  induction l with
  | nil => intro i u s s' h; exact absurd h (by simp [findServerByURL])
  | cons hd rest ih =>
    intro i u s s' h hsame
    unfold findServerByURL at h
    cases hhd : sameURL u hd.url with
    | true =>
      rw [hhd] at h
      simp only [if_true] at h
      obtain ⟨rfl, rfl⟩ : s = hd ∧ i = 0 := by
        constructor <;> · cases h; rfl
      rw [hhd] at hsame
      simp [List.set, countURL, List.filter_cons, hsame, hhd]
    | false =>
      rw [hhd] at h
      simp only [Bool.false_eq_true, if_false] at h
      cases hfr : findServerByURL rest u with
      | none => rw [hfr] at h; exact absurd h (by simp)
      | some p =>
        obtain ⟨ps, pj⟩ := p
        rw [hfr] at h
        simp only [Option.map_some'] at h
        obtain ⟨rfl, rfl⟩ : ps = s ∧ pj + 1 = i := by
          constructor <;> · cases h; rfl
        show countURL u (hd :: rest.set pj s') = countURL u (hd :: rest)
        have hih := ih pj s' hfr hsame
        unfold countURL at hih ⊢
        simp only [List.filter_cons, hhd, Bool.false_eq_true, if_false]
        exact hih

theorem weightGcd_cons (s : Server) (rest : List Server) :
    weightGcd (s :: rest) =
      rest.foldl (fun d t => if d = -1 then t.weight else goGcd d t.weight) s.weight := by
  unfold weightGcd
  rw [List.foldl_cons]
  norm_num

theorem goGcd_zero_zero : goGcd 0 0 = 0 := by decide

theorem weightGcd_all_zero {l : List Server} (hne : l ≠ [])
    (hz : ∀ s ∈ l, s.weight = 0) : weightGcd l = 0 := by
  obtain ⟨s, rest, rfl⟩ : ∃ s rest, l = s :: rest := by
    cases l with
    | nil => exact absurd rfl hne
    | cons a b => exact ⟨a, b, rfl⟩
  rw [weightGcd_cons, hz s (List.mem_cons_self _ _)]
  have : ∀ rest' : List Server, (∀ s ∈ rest', s.weight = 0) →
      rest'.foldl (fun d t => if d = -1 then t.weight else goGcd d t.weight) 0 = 0 := by
    intro rest'
    induction rest' with
    | nil => intro _; rfl
    | cons a b ih =>
      intro h
      rw [List.foldl_cons]
      have ha : a.weight = 0 := h a (List.mem_cons_self _ _)
      have : (if (0 : Int) = -1 then a.weight else goGcd 0 a.weight) = 0 := by
        rw [if_neg (by norm_num), ha, goGcd_zero_zero]
      rw [this]
      exact ih (fun s hs => h s (List.mem_cons_of_mem _ hs))
  exact this rest (fun s hs => hz s (List.mem_cons_of_mem _ hs))

theorem maxWeight_all_zero {l : List Server} (hne : l ≠ [])
    (hz : ∀ s ∈ l, s.weight = 0) : maxWeight l = 0 := by
  obtain ⟨s, rest, rfl⟩ : ∃ s rest, l = s :: rest := by
    cases l with
    | nil => exact absurd rfl hne
    | cons a b => exact ⟨a, b, rfl⟩
  unfold maxWeight
  rw [List.foldl_cons]
  have hs0 : s.weight = 0 := hz s (List.mem_cons_self _ _)
  have h1 : (if (-1 : Int) < s.weight then s.weight else -1) = 0 := by
    rw [hs0]; norm_num
  rw [h1]
  have : ∀ rest' : List Server, (∀ s ∈ rest', s.weight = 0) →
      rest'.foldl (fun m t => if m < t.weight then t.weight else m) 0 = 0 := by
    intro rest'
    induction rest' with
    | nil => intro _; rfl
    | cons a b ih =>
      intro h
      rw [List.foldl_cons]
      have ha : a.weight = 0 := h a (List.mem_cons_self _ _)
      have : (if (0 : Int) < a.weight then a.weight else 0) = 0 := by
        rw [ha]; norm_num
      rw [this]
      exact ih (fun s hs => h s (List.mem_cons_of_mem _ hs))
  exact this rest (fun s hs => hz s (List.mem_cons_of_mem _ hs))

theorem nextServer_all_zero_from_reset {r : RRState} (hne : r.servers ≠ [])
    (hz : ∀ s ∈ r.servers, s.weight = 0) (hidx : r.index = -1) (hcw : r.currentWeight = 0) :
    nextServer 1 r =
      some (.errZeroWeight, { r with index := 0, currentWeight := 0 }) := by
  unfold nextServer
  rw [if_neg (by simpa [List.length_eq_zero] using hne)]
  have hg := weightGcd_all_zero hne hz
  have hm := maxWeight_all_zero hne hz
  rw [hg, hm]
  unfold nextLoop nextStep
  rw [hidx, hcw]
  norm_num

theorem containsHeader_iff_spec (header value : String)
    (hv : value.data.map goToLower = value.data) :
    containsHeader header value = true ↔ specHeaderHasItem header value := by
  unfold containsHeader specHeaderHasItem specCaseInsensitiveEq
  rw [List.any_eq_true]
  constructor
  · rintro ⟨item, hmem, heq⟩
    exact ⟨item, hmem, by rw [beq_iff_eq] at heq; rw [heq, hv]⟩
  · rintro ⟨item, hmem, heq⟩
    exact ⟨item, hmem, by rw [beq_iff_eq]; rw [hv] at heq; exact heq⟩

theorem foldl_applySetter_metrics_none (setters : List OptSetter) :
    ∀ f : Forwarder, (∀ o ∈ setters, isMeters o = false) → f.metrics = none →
      (setters.foldl applySetter f).metrics = none := by
  induction setters with
  | nil => intro f _ hf; simpa using hf
  | cons o os ih =>
    intro f hno hf
    rw [List.foldl_cons]
    refine ih _ (fun o' h' => hno o' (List.mem_cons_of_mem _ h')) ?_
    have ho := hno o (List.mem_cons_self _ _)
    cases o <;> simp [applySetter, isMeters] at ho ⊢ <;> exact hf

theorem newForwarder_metrics (setters : List OptSetter) :
    (newForwarder setters).metrics = (setters.foldl applySetter {}).metrics := by
  unfold newForwarder
  dsimp only
  split <;> split <;> split <;> split <;> split <;> rfl

/-- C8: `isWebsocketRequest` returns true exactly when the `Connection`
header contains a comma-separated item equal, case-insensitively after
trimming whitespace, to `upgrade` and the `Upgrade` header similarly
contains `websocket`; in particular `Connection: Upgrade, keep-alive` with
`Upgrade: websocket` is detected. -/
theorem C8_websocket_detection :
    (∀ connection upgrade : String,
      isWebsocketRequest connection upgrade = true ↔
        specHeaderHasItem connection "upgrade" ∧ specHeaderHasItem upgrade "websocket") ∧
    isWebsocketRequest "Upgrade, keep-alive" "websocket" = true := by
  constructor
  · intro connection upgrade
    unfold isWebsocketRequest
    rw [Bool.and_eq_true]
    rw [containsHeader_iff_spec _ _ (by decide), containsHeader_iff_spec _ _ (by decide)]
  · decide

/-- C10: a Forwarder built by `New` without the `Meters` option has a nil
metrics context, and both serve paths dereference it unconditionally before
any forwarding, so every request served through such a Forwarder panics. -/
theorem C10_nil_metrics_panics (setters : List OptSetter)
    (hno : ∀ o ∈ setters, isMeters o = false) :
    (newForwarder setters).metrics = none ∧
    ∀ connection upgrade : String,
      forwarderServeHTTP (newForwarder setters) connection upgrade = .panicNilMetrics := by
  have hm : (newForwarder setters).metrics = none := by
    rw [newForwarder_metrics]
    exact foldl_applySetter_metrics_none setters {} hno rfl
  refine ⟨hm, fun connection upgrade => ?_⟩
  unfold forwarderServeHTTP wsServe httpServe
  rw [hm]
  split <;> rfl

/-- Witness for C10 at a concrete setter list without `Meters`. -/
theorem C10_nil_metrics_panics_witness :
    (∀ o ∈ [OptSetter.passHostHeader true, OptSetter.streamResponse true],
        isMeters o = false) ∧
    (newForwarder [OptSetter.passHostHeader true, OptSetter.streamResponse true]).metrics = none ∧
    forwarderServeHTTP (newForwarder [OptSetter.passHostHeader true, OptSetter.streamResponse true])
      "keep-alive" "" = .panicNilMetrics := by
  refine ⟨by decide, ?_⟩
  have h := C10_nil_metrics_panics
    [OptSetter.passHostHeader true, OptSetter.streamResponse true] (by decide)
  exact ⟨h.1, h.2 "keep-alive" ""⟩

/-- C2: from the freshly reset iterator over backends A, B, C with weights
1, 2, 3, six consecutive `NextServer` calls all succeed and return
C, B, C, A, B, C, so the multiset of the first six selections is
A once, B twice, C three times. -/
theorem C2_weighted_interleaving :
    nextTrace 8 6 pool123 =
      [some (.ok srvC3), some (.ok srvB2), some (.ok srvC3),
       some (.ok srvA1), some (.ok srvB2), some (.ok srvC3)] ∧
    (nextTrace 8 6 pool123).count (some (.ok srvA1)) = 1 ∧
    (nextTrace 8 6 pool123).count (some (.ok srvB2)) = 2 ∧
    (nextTrace 8 6 pool123).count (some (.ok srvC3)) = 3 := by
  decide

theorem upsertServer_found {r : RRState} {u : URL} {s : Server} {i : Nat}
    (options : List ServerOption) (hf : findServerByURL r.servers u = some (s, i)) :
    upsertServer r (some u) options =
      (match applyOptsInPlace s options with
       | (s', some e) => (.error e, { r with servers := r.servers.set i s' })
       | (s', none) =>
         (.ok (), { r with servers := r.servers.set i s', index := -1, currentWeight := 0 })) := by
  simp only [upsertServer, hf]

theorem upsertServer_new_err {r : RRState} {u : URL} {options : List ServerOption} {e : PoolErr}
    (hf : findServerByURL r.servers u = none)
    (hao : applyOptions { url := u } options = .error e) :
    upsertServer r (some u) options = (.error e, r) := by
  simp only [upsertServer, hf, hao]

theorem upsertServer_new_ok {r : RRState} {u : URL} {options : List ServerOption}
    {srv0 srv : Server}
    (hf : findServerByURL r.servers u = none)
    (hao : applyOptions { url := u } options = .ok srv0)
    (hs : (if srv0.weight = 0 then { srv0 with weight := defaultWeight } else srv0) = srv) :
    upsertServer r (some u) options =
      (match srv.routing with
       | some rt =>
         if rt.status = "FULL" ∨ rt.stickyRoutingOnly = false then
           (.ok (), { r with servers := r.servers ++ [srv], stickyServers := insertSticky r.stickyServers rt.groupID srv, index := -1, currentWeight := 0 })
         else (.ok (), { r with stickyServers := insertSticky r.stickyServers rt.groupID srv })
       | none =>
         (.ok (), { r with servers := r.servers ++ [srv], index := -1, currentWeight := 0 })) := by
  subst hs
  simp only [upsertServer, hf, hao]

theorem removeServer_found {r : RRState} {u : URL} {e : Server} {i : Nat}
    (hf : findServerByURL r.servers u = some (e, i)) :
    removeServer r u =
      (.ok (), { r with servers := r.servers.take i ++ r.servers.drop (i + 1), stickyServers := (match e.routing with | some rt => eraseSticky r.stickyServers rt.groupID | none => r.stickyServers), index := -1, currentWeight := 0 }) := by
  simp only [removeServer, hf]

theorem removeServer_notfound {r : RRState} {u : URL}
    (hf : findServerByURL r.servers u = none) :
    removeServer r u = (.error .notFound, r) := by
  simp only [removeServer, hf]

theorem upsertServer_new_routing_none {r : RRState} {u : URL} {options : List ServerOption}
    {srv0 srv : Server}
    (hf : findServerByURL r.servers u = none)
    (hao : applyOptions { url := u } options = .ok srv0)
    (hs : (if srv0.weight = 0 then { srv0 with weight := defaultWeight } else srv0) = srv)
    (hr : srv.routing = none) :
    upsertServer r (some u) options =
      (.ok (), { r with servers := r.servers ++ [srv], index := -1, currentWeight := 0 }) := by
  subst hs
  simp only [upsertServer, hf, hao, hr]

theorem upsertServer_new_routing_eligible {r : RRState} {u : URL} {options : List ServerOption}
    {srv0 srv : Server} {rt : Routing}
    (hf : findServerByURL r.servers u = none)
    (hao : applyOptions { url := u } options = .ok srv0)
    (hs : (if srv0.weight = 0 then { srv0 with weight := defaultWeight } else srv0) = srv)
    (hr : srv.routing = some rt)
    (hcond : rt.status = "FULL" ∨ rt.stickyRoutingOnly = false) :
    upsertServer r (some u) options =
      (.ok (), { r with servers := r.servers ++ [srv], stickyServers := insertSticky r.stickyServers rt.groupID srv, index := -1, currentWeight := 0 }) := by
  subst hs
  simp only [upsertServer, hf, hao, hr]
  rw [if_pos hcond]

theorem upsertServer_new_group_only {r : RRState} {u : URL} {options : List ServerOption}
    {srv0 srv : Server} {rt : Routing}
    (hf : findServerByURL r.servers u = none)
    (hao : applyOptions { url := u } options = .ok srv0)
    (hs : (if srv0.weight = 0 then { srv0 with weight := defaultWeight } else srv0) = srv)
    (hr : srv.routing = some rt)
    (hcond : ¬(rt.status = "FULL" ∨ rt.stickyRoutingOnly = false)) :
    upsertServer r (some u) options =
      (.ok (), { r with stickyServers := insertSticky r.stickyServers rt.groupID srv }) := by
  subst hs
  simp only [upsertServer, hf, hao, hr]
  rw [if_neg hcond]

/-- C4 counterexample: after one `NextServer` call on a one-backend pool the
iterator reads `(0, 1)`; upserting a new group-only backend
(`EnableJSID("X", 5, keys, true)`, status not `FULL`) succeeds but leaves the
iterator at `(0, 1)` instead of the claimed `(-1, 0)`: this insertion path
skips `resetState`. -/
theorem C4_group_only_insert_counterexample :
    poolA1stepped.index = 0 ∧ poolA1stepped.currentWeight = 1 ∧
    findServerByURL poolA1stepped.servers urlB = none ∧
    (upsertServer poolA1stepped (some urlB) [.enableJSID "X" 5 [] true]).1 = .ok () ∧
    (upsertServer poolA1stepped (some urlB) [.enableJSID "X" 5 [] true]).2.index = 0 ∧
    (upsertServer poolA1stepped (some urlB) [.enableJSID "X" 5 [] true]).2.currentWeight = 1 := by
  decide

/-- C4 (amended): after every successful `UpsertServer` call other than a
group-only insertion (new backend with routing, `status ≠ FULL` and
`stickyRoutingOnly = true`, an insertion that skips `resetState`), and after
every successful `RemoveServer` call, the iterator state satisfies
`index = -1` and `currentWeight = 0`. -/
theorem C4_iterator_reset_amended (r : RRState) (u : URL) (options : List ServerOption) :
    (∀ r', upsertServer r (some u) options = (.ok (), r') →
      groupOnlyInsert r u options = false → r'.index = -1 ∧ r'.currentWeight = 0) ∧
    (∀ r', removeServer r u = (.ok (), r') → r'.index = -1 ∧ r'.currentWeight = 0) := by
  constructor
  · intro r' hup hgo
    cases hf : findServerByURL r.servers u with
    | some p =>
      obtain ⟨s, i⟩ := p
      rw [upsertServer_found options hf] at hup
      cases hap : applyOptsInPlace s options with
      | mk s' err =>
        rw [hap] at hup
        cases err with
        | some e => simp at hup
        | none =>
          have h2 := congrArg Prod.snd hup
          dsimp at h2
          rw [← h2]
          exact ⟨rfl, rfl⟩
    | none =>
      cases hao : applyOptions { url := u } options with
      | error e =>
        rw [upsertServer_new_err hf hao] at hup
        simp at hup
      | ok srv0 =>
        have hrt : (if srv0.weight = 0 then { srv0 with weight := defaultWeight }
            else srv0).routing = srv0.routing := by
          split <;> rfl
        cases hr : srv0.routing with
        | none =>
          rw [upsertServer_new_routing_none hf hao rfl (hrt.trans hr)] at hup
          have h2 := congrArg Prod.snd hup
          dsimp at h2
          rw [← h2]
          exact ⟨rfl, rfl⟩
        | some rt =>
          by_cases hcond : rt.status = "FULL" ∨ rt.stickyRoutingOnly = false
          · rw [upsertServer_new_routing_eligible hf hao rfl (hrt.trans hr) hcond] at hup
            have h2 := congrArg Prod.snd hup
            dsimp at h2
            rw [← h2]
            exact ⟨rfl, rfl⟩
          · exfalso
            simp only [groupOnlyInsert, hf, hao, hr] at hgo
            push_neg at hcond
            obtain ⟨h1, h2'⟩ := hcond
            have hsro : rt.stickyRoutingOnly = true := by
              cases hb : rt.stickyRoutingOnly with
              | true => rfl
              | false => exact absurd hb h2'
            rw [hsro] at hgo
            simp [bne_iff_ne, h1] at hgo
  · intro r' hrm
    cases hf : findServerByURL r.servers u with
    | none =>
      rw [removeServer_notfound hf] at hrm
      simp at hrm
    | some p =>
      obtain ⟨e, i⟩ := p
      rw [removeServer_found hf] at hrm
      have h2 := congrArg Prod.snd hrm
      dsimp at h2
      rw [← h2]
      exact ⟨rfl, rfl⟩

/-- Witness for the amended C4 at a concrete pool: upserting backend B into
the one-backend pool and removing backend A both reset the iterator. -/
theorem C4_iterator_reset_amended_witness :
    ((upsertServer poolA1 (some urlB) []).2.index = -1 ∧
      (upsertServer poolA1 (some urlB) []).2.currentWeight = 0) ∧
    ((removeServer poolA1 urlA).2.index = -1 ∧
      (removeServer poolA1 urlA).2.currentWeight = 0) := by
  constructor
  · exact (C4_iterator_reset_amended poolA1 urlB []).1 (upsertServer poolA1 (some urlB) []).2
      (by decide) (by decide)
  · exact (C4_iterator_reset_amended poolA1 urlA []).2 (removeServer poolA1 urlA).2 (by decide)

theorem serverWeight_of_find {r : RRState} {u : URL} {s : Server} {i : Nat}
    (h : findServerByURL r.servers u = some (s, i)) : serverWeight r u = (s.weight, true) := by
  simp only [serverWeight, h]

/-- C6 counterexample: upserting a fresh backend with an explicit `Weight(0)`
option registers it with weight 1, not 0: the new-server path applies
`defaultWeight` whenever the configured weight is 0. -/
theorem C6_weight_zero_counterexample :
    serverWeight (upsertServer (newRoundRobin none) (some urlA) [.weight 0]).2 urlA = (1, true) ∧
    serverWeight (upsertServer (newRoundRobin none) (some urlA) [.weight 0]).2 urlA ≠ (0, true) := by
  decide

/-- C6 (amended): a new rotation-eligible backend whose options leave the
weight at 0 (no weight option, or an explicit `Weight(0)`) is registered
with the default weight 1, so weight 0 cannot be configured at creation; it
can be set by a second upsert of the same URL, after which `ServerWeight`
returns `(0, true)`; and when every backend carries weight 0, `NextServer`
from the reset iterator state fails with the zero-weight error. -/
theorem C6_weight_rules_amended :
    (∀ (r : RRState) (u : URL) (options : List ServerOption) (srv0 : Server),
      findServerByURL r.servers u = none →
      applyOptions { url := u } options = .ok srv0 →
      srv0.weight = 0 → rotEligible srv0 = true →
      serverWeight (upsertServer r (some u) options).2 u = (1, true)) ∧
    (∀ (r : RRState) (u : URL) (s : Server) (i : Nat),
      findServerByURL r.servers u = some (s, i) →
      serverWeight (upsertServer r (some u) [.weight 0]).2 u = (0, true)) ∧
    (∀ r : RRState, r.servers ≠ [] → (∀ s ∈ r.servers, s.weight = 0) →
      r.index = -1 → r.currentWeight = 0 →
      nextServer 1 r = some (.errZeroWeight, { r with index := 0, currentWeight := 0 })) := by
  refine ⟨?_, ?_, ?_⟩
  · intro r u options srv0 hf hao hw helig
    have hurl : srv0.url = u := applyOptions_url options { url := u } srv0 hao
    have hs : (if srv0.weight = 0 then { srv0 with weight := defaultWeight } else srv0)
        = { srv0 with weight := defaultWeight } := if_pos hw
    have hsame : sameURL u ({ srv0 with weight := defaultWeight } : Server).url = true := by
      show sameURL u srv0.url = true
      rw [hurl]
      exact sameURL_refl u
    cases hr : srv0.routing with
    | none =>
      rw [upsertServer_new_routing_none hf hao hs hr]
      dsimp only
      rw [serverWeight_of_find (findServerByURL_append_singleton _ hf hsame)]
      rfl
    | some rt =>
      have hcond : rt.status = "FULL" ∨ rt.stickyRoutingOnly = false := by
        simp only [rotEligible, hr, Bool.or_eq_true, beq_iff_eq, Bool.not_eq_true'] at helig
        exact helig
      rw [upsertServer_new_routing_eligible hf hao hs hr hcond]
      dsimp only
      rw [serverWeight_of_find (findServerByURL_append_singleton _ hf hsame)]
      rfl
  · intro r u s i hf
    have hap : applyOptsInPlace s [.weight 0] = ({ s with weight := 0 }, none) := by
      simp [applyOptsInPlace, applyOption]
    rw [upsertServer_found [.weight 0] hf, hap]
    dsimp only
    rw [serverWeight_of_find (findServerByURL_set r.servers i { s with weight := 0 } hf rfl)]
  · intro r hne hz hidx hcw
    exact nextServer_all_zero_from_reset hne hz hidx hcw

/-- Witness for the amended C6: a fresh upsert of A with `Weight(0)` yields
registered weight 1; a second upsert with `Weight(0)` then yields weight 0;
`NextServer` on the all-zero two-backend pool fails from reset. -/
theorem C6_weight_rules_amended_witness :
    serverWeight (upsertServer (newRoundRobin none) (some urlA) [.weight 0]).2 urlA = (1, true) ∧
    serverWeight (upsertServer poolA1 (some urlA) [.weight 0]).2 urlA = (0, true) ∧
    nextServer 1 poolZeroZero =
      some (.errZeroWeight, { poolZeroZero with index := 0, currentWeight := 0 }) := by
  refine ⟨?_, ?_, ?_⟩
  · exact C6_weight_rules_amended.1 (newRoundRobin none) urlA [.weight 0]
      { url := urlA, weight := 0 } (by decide) (by decide) (by decide) (by decide)
  · exact C6_weight_rules_amended.2.1 poolA1 urlA { url := urlA, weight := 1 } 0 (by decide)
  · exact C6_weight_rules_amended.2.2 poolZeroZero (by decide) (by decide) (by decide) (by decide)

/-- C5: for a URL not present in the pool (by scheme+host+path equality),
`UpsertServer(u)` followed by `RemoveServer(u)` restores the number of pool
entries, whatever options the upsert carries (on an option error or a
group-only insert nothing enters the rotation and the removal is a failing
no-op); and two `UpsertServer` calls with the same URL — the first
successfully creating a rotation backend, the second taking the update
path — leave exactly one backend for that URL in the pool. -/
theorem C5_upsert_remove_roundtrip (r : RRState) (u : URL)
    (habs : ∀ s ∈ r.servers, sameURL u s.url = false) :
    (∀ options,
      ((removeServer (upsertServer r (some u) options).2 u).2).servers.length =
        r.servers.length) ∧
    (∀ options1 options2 srv0, applyOptions { url := u } options1 = .ok srv0 →
      rotEligible srv0 = true →
      countURL u
        ((upsertServer (upsertServer r (some u) options1).2 (some u) options2).2).servers = 1) := by
  have hf : findServerByURL r.servers u = none := (findServerByURL_eq_none _ _).mpr habs
  constructor
  · intro options
    cases hao : applyOptions { url := u } options with
    | error e =>
      rw [upsertServer_new_err hf hao]
      dsimp only
      rw [removeServer_notfound hf]
    | ok srv0 =>
      have hsurl : (if srv0.weight = 0 then { srv0 with weight := defaultWeight }
          else srv0).url = srv0.url := by
        split <;> rfl
      have hrt : (if srv0.weight = 0 then { srv0 with weight := defaultWeight }
          else srv0).routing = srv0.routing := by
        split <;> rfl
      have hsame : sameURL u (if srv0.weight = 0 then { srv0 with weight := defaultWeight }
          else srv0).url = true := by
        rw [hsurl, applyOptions_url options { url := u } srv0 hao]
        exact sameURL_refl u
      cases hr : srv0.routing with
      | none =>
        rw [upsertServer_new_routing_none hf hao rfl (hrt.trans hr)]
        dsimp only
        rw [removeServer_found (findServerByURL_append_singleton _ hf hsame)]
        dsimp only
        rw [List.take_left, List.drop_append]
        simp
      | some rt =>
        by_cases hcond : rt.status = "FULL" ∨ rt.stickyRoutingOnly = false
        · rw [upsertServer_new_routing_eligible hf hao rfl (hrt.trans hr) hcond]
          dsimp only
          rw [removeServer_found (findServerByURL_append_singleton _ hf hsame)]
          dsimp only
          rw [List.take_left, List.drop_append]
          simp
        · rw [upsertServer_new_group_only hf hao rfl (hrt.trans hr) hcond]
          dsimp only
          have hgen : ∀ X : RRState, X.servers = r.servers →
              (removeServer X u).2.servers.length = r.servers.length := by
            intro X hX
            have hfX : findServerByURL X.servers u = none := by rw [hX]; exact hf
            rw [removeServer_notfound hfX]
            dsimp only
            rw [hX]
          exact hgen _ rfl
  · intro options1 options2 srv0 hao1 helig
    have hsurl : (if srv0.weight = 0 then { srv0 with weight := defaultWeight }
        else srv0).url = srv0.url := by
      split <;> rfl
    have hrt : (if srv0.weight = 0 then { srv0 with weight := defaultWeight }
        else srv0).routing = srv0.routing := by
      split <;> rfl
    have hsame : sameURL u (if srv0.weight = 0 then { srv0 with weight := defaultWeight }
        else srv0).url = true := by
      rw [hsurl, applyOptions_url options1 { url := u } srv0 hao1]
      exact sameURL_refl u
    have hcount : countURL u (r.servers ++
        [if srv0.weight = 0 then { srv0 with weight := defaultWeight } else srv0]) = 1 := by
      rw [countURL_append, countURL_eq_zero habs]
      simp [countURL, List.filter, hsame]
    have hfind2 := @findServerByURL_append_singleton r.servers u
      (if srv0.weight = 0 then { srv0 with weight := defaultWeight } else srv0) hf hsame
    have main : ∀ (X : RRState),
        X.servers = r.servers ++
          [if srv0.weight = 0 then { srv0 with weight := defaultWeight } else srv0] →
        countURL u ((upsertServer X (some u) options2).2).servers = 1 := by
      intro X hX
      have hfindX : findServerByURL X.servers u =
          some (if srv0.weight = 0 then { srv0 with weight := defaultWeight } else srv0,
            r.servers.length) := by
        rw [hX]; exact hfind2
      cases hap : applyOptsInPlace
          (if srv0.weight = 0 then { srv0 with weight := defaultWeight } else srv0) options2 with
      | mk s2 err2 =>
        have hs2url : sameURL u s2.url = sameURL u
            (if srv0.weight = 0 then { srv0 with weight := defaultWeight } else srv0).url := by
          have := applyOptsInPlace_url options2
            (if srv0.weight = 0 then { srv0 with weight := defaultWeight } else srv0)
          rw [hap] at this
          rw [this]
        have hcset := countURL_set X.servers r.servers.length s2 hfindX hs2url
        rw [upsertServer_found options2 hfindX, hap]
        cases err2 with
        | some e2 =>
          dsimp only
          rw [hcset, hX, hcount]
        | none =>
          dsimp only
          rw [hcset, hX, hcount]
    cases hr : srv0.routing with
    | none =>
      rw [upsertServer_new_routing_none hf hao1 rfl (hrt.trans hr)]
      exact main _ rfl
    | some rt =>
      have hcond : rt.status = "FULL" ∨ rt.stickyRoutingOnly = false := by
        simp only [rotEligible, hr, Bool.or_eq_true, beq_iff_eq, Bool.not_eq_true'] at helig
        exact helig
      rw [upsertServer_new_routing_eligible hf hao1 rfl (hrt.trans hr) hcond]
      exact main _ rfl

/-- Witness for C5 at a concrete pool: upserting and removing B on the
one-backend pool restores one entry; two upserts of B leave one B entry. -/
theorem C5_upsert_remove_roundtrip_witness :
    ((removeServer (upsertServer poolA1 (some urlB) []).2 urlB).2).servers.length =
      poolA1.servers.length ∧
    countURL urlB
      ((upsertServer (upsertServer poolA1 (some urlB) []).2 (some urlB) []).2).servers = 1 := by
  constructor
  · exact (C5_upsert_remove_roundtrip poolA1 urlB (by decide)).1 []
  · exact (C5_upsert_remove_roundtrip poolA1 urlB (by decide)).2 [] [] { url := urlB }
      (by decide) (by decide)

/-- C1 counterexample: in `poolSticky` the `sess` cookie of the request
resolves to live backend A, yet because the request also carries a signed
token whose group id 7 matches group-sticky backend B, `ServeHTTP` forwards
the request to B, not to the cookie's backend A: `srv = r.stickyServers[gid]`
overwrites the cookie's selection. -/
theorem C1_token_overrides_cookie_counterexample :
    getBackend "sess" reqCookieAndToken poolSticky.servers = .ok (some srvA1) ∧
    serveHTTP 4 poolSticky reqCookieAndToken =
      some (.forwarded srvBfull { scheme := "http", host := "b", path := "/x" }, poolSticky) ∧
    srvBfull.url ≠ srvA1.url := by
  refine ⟨by decide, ?_, by decide⟩
  rfl

/-- C1 (amended): when the configured sticky cookie resolves to a live
backend and the request carries no signed token, `ServeHTTP` forwards the
request to the cookie's backend; a present token whose group id matches a
group-sticky backend overrides the cookie's choice (and if its group matches
nothing the handler dereferences a nil server). -/
theorem C1_cookie_wins_without_token (fuel : Nat) (r : RRState) (req : Request)
    (name : String) (s : Server)
    (hss : r.ss = some name)
    (hgb : getBackend name req r.servers = .ok (some s))
    (hjs : req.jsid = none) :
    serveHTTP fuel r req = some (.forwarded s (rewriteURL s req), r) := by
  unfold serveHTTP
  rw [hss]
  dsimp only
  rw [hgb]
  dsimp only
  rw [hjs]
  rfl

/-- Witness for the amended C1: on `poolSticky`, the cookie-only request is
forwarded to backend A. -/
theorem C1_cookie_wins_without_token_witness :
    poolSticky.ss = some "sess" ∧
    getBackend "sess" reqCookieOnly poolSticky.servers = .ok (some srvA1) ∧
    reqCookieOnly.jsid = none ∧
    serveHTTP 4 poolSticky reqCookieOnly =
      some (.forwarded srvA1 (rewriteURL srvA1 reqCookieOnly), poolSticky) := by
  refine ⟨by decide, by decide, rfl, ?_⟩
  exact C1_cookie_wins_without_token 4 poolSticky reqCookieOnly "sess" srvA1
    (by decide) (by decide) rfl

theorem posBounds {N : Int} (hN : 0 < N) {i : Int} (hi : -1 ≤ i) :
    0 ≤ (i + 1).tmod N ∧ (i + 1).tmod N < N := by
  have h1 : 0 ≤ i + 1 := by omega
  rw [Int.tmod_eq_emod h1 (le_of_lt hN)]
  exact ⟨Int.emod_nonneg _ (by omega), Int.emod_lt_of_pos _ hN⟩

theorem checkSrv_valid_eq {servers : List Server} {st : IterState}
    (h0 : 0 ≤ st.index) (hlt : st.index.toNat < servers.length) :
    checkSrv servers st =
      if st.currentWeight ≤ (servers.get ⟨st.index.toNat, hlt⟩).weight
      then .ret (.ok (servers.get ⟨st.index.toNat, hlt⟩)) st else .cont st := by
  unfold checkSrv
  rw [dif_pos ⟨h0, hlt⟩]

theorem nextStep_no_wrap {servers : List Server} {g m : Int} {st : IterState}
    (hp : (st.index + 1).tmod (servers.length : Int) ≠ 0) :
    nextStep servers g m st =
      checkSrv servers ⟨(st.index + 1).tmod (servers.length : Int), st.currentWeight⟩ := by
  unfold nextStep
  rw [if_neg hp]

theorem nextStep_wrap_reset {servers : List Server} {g m : Int} {st : IterState}
    (hp : (st.index + 1).tmod (servers.length : Int) = 0)
    (hcw : st.currentWeight - g ≤ 0) (hm : m ≠ 0) :
    nextStep servers g m st = checkSrv servers ⟨0, m⟩ := by
  unfold nextStep
  rw [hp, if_pos rfl, if_pos hcw, if_neg hm]

theorem nextStep_wrap_err {servers : List Server} {g m : Int} {st : IterState}
    (hp : (st.index + 1).tmod (servers.length : Int) = 0)
    (hcw : st.currentWeight - g ≤ 0) (hm : m = 0) :
    nextStep servers g m st = .ret .errZeroWeight ⟨0, m⟩ := by
  unfold nextStep
  rw [hp, if_pos rfl, if_pos hcw, if_pos hm]

theorem nextStep_wrap_no_reset {servers : List Server} {g m : Int} {st : IterState}
    (hp : (st.index + 1).tmod (servers.length : Int) = 0)
    (hcw : ¬st.currentWeight - g ≤ 0) :
    nextStep servers g m st = checkSrv servers ⟨0, st.currentWeight - g⟩ := by
  unfold nextStep
  rw [hp, if_pos rfl, if_neg hcw]

theorem loopFinds_of_ret {servers : List Server} {g m : Int} {st st' : IterState} {s : Server}
    (h : nextStep servers g m st = .ret (.ok s) st') :
    loopFindsBackend servers g m st := by
  refine ⟨1, s, st', ?_⟩
  unfold nextLoop
  rw [h]

theorem loopFinds_of_cont {servers : List Server} {g m : Int} {st st' : IterState}
    (h : nextStep servers g m st = .cont st')
    (h' : loopFindsBackend servers g m st') :
    loopFindsBackend servers g m st := by
  obtain ⟨fuel, s, st'', hl⟩ := h'
  refine ⟨fuel + 1, s, st'', ?_⟩
  unfold nextLoop
  rw [h]
  exact hl

theorem stepAt {servers : List Server} {g m : Int} {i : Nat}
    (hi1 : i + 1 < servers.length) (cw : Int) :
    nextStep servers g m ⟨(i : Int), cw⟩ =
      if cw ≤ (servers.get ⟨i + 1, hi1⟩).weight
      then .ret (.ok (servers.get ⟨i + 1, hi1⟩)) ⟨((i + 1 : Nat) : Int), cw⟩
      else .cont ⟨((i + 1 : Nat) : Int), cw⟩ := by
  have hcast : ((i : Int) + 1) = ((i + 1 : Nat) : Int) := by push_cast; ring
  have hmod : ((i + 1 : Nat) : Int).tmod (servers.length : Int) = ((i + 1 : Nat) : Int) := by
    rw [Int.tmod_eq_emod (by positivity) (by positivity)]
    exact Int.emod_eq_of_lt (by positivity) (by exact_mod_cast hi1)
  have hp : (((i : Int)) + 1).tmod (servers.length : Int) = ((i + 1 : Nat) : Int) := by
    rw [hcast, hmod]
  have hpne : (((i : Int)) + 1).tmod (servers.length : Int) ≠ 0 := by
    rw [hp]
    exact_mod_cast Nat.succ_ne_zero i
  have hstep := @nextStep_no_wrap servers g m ⟨(i : Int), cw⟩ hpne
  rw [hstep, hp]
  have hlt : ((i + 1 : Nat) : Int).toNat < servers.length := by
    simpa using hi1
  rw [checkSrv_valid_eq (by positivity) hlt]
  rfl

theorem wrapCondLast {servers : List Server} (hN : 0 < servers.length) :
    (((servers.length - 1 : Nat) : Int) + 1).tmod (servers.length : Int) = 0 := by
  have hcast : ((servers.length - 1 : Nat) : Int) + 1 = (servers.length : Int) := by
    have h1 : 1 ≤ servers.length := hN
    push_cast [Nat.cast_sub h1]
    ring
  rw [hcast]
  exact Int.tmod_self

theorem scanFind {servers : List Server} {g m : Int} :
    ∀ (d i : Nat) (cw : Int) (t : Nat) (ht : t < servers.length),
      i < t → t ≤ i + d + 1 → cw ≤ (servers.get ⟨t, ht⟩).weight →
      loopFindsBackend servers g m ⟨(i : Int), cw⟩ := by
  intro d
  induction d with
  | zero =>
    intro i cw t ht hit hle hw
    have ht' : t = i + 1 := by omega
    subst ht'
    have hstep := stepAt (g := g) (m := m) ht cw
    rw [if_pos hw] at hstep
    exact loopFinds_of_ret hstep
  | succ d ih =>
    intro i cw t ht hit hle hw
    have hi1 : i + 1 < servers.length := by omega
    have hstep := stepAt (g := g) (m := m) hi1 cw
    by_cases hcmp : cw ≤ (servers.get ⟨i + 1, hi1⟩).weight
    · rw [if_pos hcmp] at hstep
      exact loopFinds_of_ret hstep
    · rw [if_neg hcmp] at hstep
      refine loopFinds_of_cont hstep ?_
      have hti1 : i + 1 < t := by
        rcases Nat.lt_or_ge (i + 1) t with h | h
        · exact h
        · have : t = i + 1 := by omega
          subst this
          exact absurd hw hcmp
      exact ih (i + 1) cw t ht hti1 (by omega) hw

theorem scanWrap {servers : List Server} {g m : Int} :
    ∀ (d i : Nat) (cw : Int), i + d + 1 = servers.length →
      loopFindsBackend servers g m ⟨((servers.length - 1 : Nat) : Int), cw⟩ →
      loopFindsBackend servers g m ⟨(i : Int), cw⟩ := by
  intro d
  induction d with
  | zero =>
    intro i cw hd hterm
    have : i = servers.length - 1 := by omega
    subst this
    exact hterm
  | succ d ih =>
    intro i cw hd hterm
    have hi1 : i + 1 < servers.length := by omega
    have hstep := stepAt (g := g) (m := m) hi1 cw
    by_cases hcmp : cw ≤ (servers.get ⟨i + 1, hi1⟩).weight
    · rw [if_pos hcmp] at hstep
      exact loopFinds_of_ret hstep
    · rw [if_neg hcmp] at hstep
      exact loopFinds_of_cont hstep (ih (i + 1) cw (by omega) hterm)

theorem wrapTerm {servers : List Server} {g m : Int}
    (hN : 0 < servers.length) (hg : 1 ≤ g) (hm : 1 ≤ m)
    (hmax : ∃ (t : Nat) (ht : t < servers.length), (servers.get ⟨t, ht⟩).weight = m) :
    ∀ (cwN : Nat) (st : IterState),
      (st.index + 1).tmod (servers.length : Int) = 0 → st.currentWeight.toNat ≤ cwN →
      loopFindsBackend servers g m st := by
  intro cwN
  induction cwN using Nat.strong_induction_on with
  | _ cwN IH =>
    intro st hp hle
    have h0lt : (0 : Int).toNat < servers.length := by simpa using hN
    by_cases hcw1 : st.currentWeight - g ≤ 0
    · have hstep := nextStep_wrap_reset (m := m) hp hcw1 (by omega)
      rw [checkSrv_valid_eq (le_refl 0) h0lt] at hstep
      dsimp only at hstep
      by_cases hw0 : m ≤ (servers.get ⟨(0 : Int).toNat, h0lt⟩).weight
      · rw [if_pos hw0] at hstep
        exact loopFinds_of_ret hstep
      · rw [if_neg hw0] at hstep
        obtain ⟨t, ht, hteq⟩ := hmax
        have ht0 : 0 < t := by
          rcases Nat.eq_zero_or_pos t with h | h
          · subst h
            exact absurd (le_of_eq hteq.symm) hw0
          · exact h
        refine loopFinds_of_cont hstep ?_
        exact scanFind t 0 m t ht ht0 (by omega) (le_of_eq hteq.symm)
    · have hstep := nextStep_wrap_no_reset (m := m) hp hcw1
      rw [checkSrv_valid_eq (le_refl 0) h0lt] at hstep
      dsimp only at hstep
      by_cases hw0 : st.currentWeight - g ≤ (servers.get ⟨(0 : Int).toNat, h0lt⟩).weight
      · rw [if_pos hw0] at hstep
        exact loopFinds_of_ret hstep
      · rw [if_neg hw0] at hstep
        refine loopFinds_of_cont hstep ?_
        have hterm : loopFindsBackend servers g m
            ⟨((servers.length - 1 : Nat) : Int), st.currentWeight - g⟩ :=
          IH (st.currentWeight - g).toNat (by omega) _ (wrapCondLast hN) (le_refl _)
        exact scanWrap (servers.length - 1) 0 (st.currentWeight - g) (by omega) hterm

theorem loopTerm {servers : List Server} {g m : Int}
    (hN : 0 < servers.length) (hg : 1 ≤ g) (hm : 1 ≤ m)
    (hmax : ∃ (t : Nat) (ht : t < servers.length), (servers.get ⟨t, ht⟩).weight = m) :
    ∀ st : IterState, -1 ≤ st.index → loopFindsBackend servers g m st := by
  intro st hidx
  have hNi : (0 : Int) < (servers.length : Int) := by exact_mod_cast hN
  obtain ⟨hp0, hpN⟩ := posBounds hNi hidx
  by_cases hp : (st.index + 1).tmod (servers.length : Int) = 0
  · exact wrapTerm hN hg hm hmax st.currentWeight.toNat st hp (le_refl _)
  · have hstep := nextStep_no_wrap (g := g) (m := m) hp
    have hptn : ((st.index + 1).tmod (servers.length : Int)).toNat < servers.length := by
      omega
    rw [checkSrv_valid_eq hp0 hptn] at hstep
    dsimp only at hstep
    by_cases hw : st.currentWeight ≤
        (servers.get ⟨((st.index + 1).tmod (servers.length : Int)).toNat, hptn⟩).weight
    · rw [if_pos hw] at hstep
      exact loopFinds_of_ret hstep
    · rw [if_neg hw] at hstep
      refine loopFinds_of_cont hstep ?_
      have hterm : loopFindsBackend servers g m
          ⟨((servers.length - 1 : Nat) : Int), st.currentWeight⟩ :=
        wrapTerm hN hg hm hmax st.currentWeight.toNat _ (wrapCondLast hN) (le_refl _)
      have hsw := scanWrap (servers.length - 1 - ((st.index + 1).tmod
          (servers.length : Int)).toNat) (((st.index + 1).tmod (servers.length : Int)).toNat)
          st.currentWeight (by omega) hterm
      have hcast : ((((st.index + 1).tmod (servers.length : Int)).toNat : Nat) : Int) =
          (st.index + 1).tmod (servers.length : Int) := Int.toNat_of_nonneg hp0
      rw [hcast] at hsw
      exact hsw

theorem goGcdAux_nonneg_eq :
    ∀ (n : Nat) (a b : Int), 0 ≤ a → 0 ≤ b → b.natAbs ≤ n →
      goGcdAux (n + 1) a b = (Nat.gcd a.toNat b.toNat : Int) := by
  intro n
  induction n with
  | zero =>
    intro a b ha hb hn
    have hb0 : b = 0 := by omega
    subst hb0
    unfold goGcdAux
    rw [if_pos rfl]
    simp [Int.toNat_of_nonneg ha]
  | succ n ih =>
    intro a b ha hb hn
    unfold goGcdAux
    by_cases hb0 : b = 0
    · subst hb0
      rw [if_pos rfl]
      simp [Int.toNat_of_nonneg ha]
    · rw [if_neg hb0]
      have hbpos : 0 < b := by omega
      have htm : a.tmod b = a % b := Int.tmod_eq_emod ha hb
      have hmod0 : 0 ≤ a % b := Int.emod_nonneg a hb0
      have hmodlt : a % b < b := Int.emod_lt_of_pos a hbpos
      have hrec := ih b (a.tmod b) hb (htm ▸ hmod0) (by omega)
      rw [hrec]
      have hcast : (a.tmod b).toNat = a.toNat % b.toNat := by
        have h : a.tmod b = ((a.toNat % b.toNat : Nat) : Int) := by
          conv_lhs => rw [← Int.toNat_of_nonneg ha, ← Int.toNat_of_nonneg hb]
          rw [← Int.ofNat_tmod]
        rw [h, Int.toNat_natCast]
      rw [hcast]
      rw [Nat.gcd_comm b.toNat, ← Nat.gcd_rec b.toNat a.toNat, Nat.gcd_comm b.toNat]

theorem goGcd_eq_natGcd {a b : Int} (ha : 0 ≤ a) (hb : 0 ≤ b) :
    goGcd a b = (Nat.gcd a.toNat b.toNat : Int) :=
  goGcdAux_nonneg_eq b.natAbs a b ha hb (le_refl _)

theorem goGcd_nonneg {a b : Int} (ha : 0 ≤ a) (hb : 0 ≤ b) : 0 ≤ goGcd a b := by
  rw [goGcd_eq_natGcd ha hb]
  positivity

theorem goGcd_pos {a b : Int} (ha : 0 ≤ a) (hb : 0 ≤ b) (h : 1 ≤ a ∨ 1 ≤ b) :
    1 ≤ goGcd a b := by
  rw [goGcd_eq_natGcd ha hb]
  have : Nat.gcd a.toNat b.toNat ≠ 0 := by
    rw [Ne, Nat.gcd_eq_zero_iff]
    rintro ⟨h1, h2⟩
    omega
  omega

theorem weightGcd_foldl_nonneg :
    ∀ (l : List Server) (acc : Int), 0 ≤ acc → (∀ s ∈ l, 0 ≤ s.weight) →
      0 ≤ l.foldl (fun d s => if d = -1 then s.weight else goGcd d s.weight) acc := by
  intro l
  induction l with
  | nil => intro acc hacc _; exact hacc
  | cons s rest ih =>
    intro acc hacc hw
    rw [List.foldl_cons]
    have hstep : 0 ≤ if acc = -1 then s.weight else goGcd acc s.weight := by
      split
      · exact hw s (List.mem_cons_self _ _)
      · exact goGcd_nonneg hacc (hw s (List.mem_cons_self _ _))
    exact ih _ hstep (fun t ht => hw t (List.mem_cons_of_mem _ ht))

theorem weightGcd_foldl_pos_acc :
    ∀ (l : List Server) (acc : Int), 1 ≤ acc → (∀ s ∈ l, 0 ≤ s.weight) →
      1 ≤ l.foldl (fun d s => if d = -1 then s.weight else goGcd d s.weight) acc := by
  intro l
  induction l with
  | nil => intro acc hacc _; exact hacc
  | cons s rest ih =>
    intro acc hacc hw
    rw [List.foldl_cons]
    have hstep : 1 ≤ if acc = -1 then s.weight else goGcd acc s.weight := by
      rw [if_neg (by omega)]
      exact goGcd_pos (by omega) (hw s (List.mem_cons_self _ _)) (Or.inl hacc)
    exact ih _ hstep (fun t ht => hw t (List.mem_cons_of_mem _ ht))

theorem weightGcd_foldl_pos_mem :
    ∀ (l : List Server) (acc : Int), 0 ≤ acc → (∀ s ∈ l, 0 ≤ s.weight) →
      (∃ s ∈ l, 1 ≤ s.weight) →
      1 ≤ l.foldl (fun d s => if d = -1 then s.weight else goGcd d s.weight) acc := by
  intro l
  induction l with
  | nil => rintro acc _ _ ⟨s, hs, _⟩; cases hs
  | cons s rest ih =>
    rintro acc hacc hw ⟨t, ht, htw⟩
    rw [List.foldl_cons]
    rcases List.mem_cons.mp ht with rfl | htrest
    · have hstep : 1 ≤ if acc = -1 then t.weight else goGcd acc t.weight := by
        split
        · exact htw
        · exact goGcd_pos hacc (by omega) (Or.inr htw)
      exact weightGcd_foldl_pos_acc rest _ hstep
        (fun x hx => hw x (List.mem_cons_of_mem _ hx))
    · have hstep : 0 ≤ if acc = -1 then s.weight else goGcd acc s.weight := by
        split
        · exact hw s (List.mem_cons_self _ _)
        · exact goGcd_nonneg hacc (hw s (List.mem_cons_self _ _))
      exact ih _ hstep (fun x hx => hw x (List.mem_cons_of_mem _ hx)) ⟨t, htrest, htw⟩

theorem weightGcd_pos {servers : List Server}
    (hw : ∀ s ∈ servers, 0 ≤ s.weight) (hpos : ∃ s ∈ servers, 0 < s.weight) :
    1 ≤ weightGcd servers := by
  obtain ⟨t, ht, htw⟩ := hpos
  cases servers with
  | nil => cases ht
  | cons s rest =>
    rw [weightGcd_cons]
    rcases List.mem_cons.mp ht with rfl | htrest
    · exact weightGcd_foldl_pos_acc rest _ (by omega)
        (fun x hx => hw x (List.mem_cons_of_mem _ hx))
    · rcases Int.lt_or_le 0 s.weight with h | h
      · exact weightGcd_foldl_pos_acc rest _ (by omega)
          (fun x hx => hw x (List.mem_cons_of_mem _ hx))
      · have hs0 : s.weight = 0 := le_antisymm h (hw s (List.mem_cons_self _ _))
        exact weightGcd_foldl_pos_mem rest _ (by omega)
          (fun x hx => hw x (List.mem_cons_of_mem _ hx)) ⟨t, htrest, by omega⟩

theorem maxWeight_foldl_ge_acc :
    ∀ (l : List Server) (acc : Int),
      acc ≤ l.foldl (fun m s => if m < s.weight then s.weight else m) acc := by
  intro l
  induction l with
  | nil => intro acc; exact le_refl acc
  | cons s rest ih =>
    intro acc
    rw [List.foldl_cons]
    refine le_trans ?_ (ih _)
    split <;> omega

theorem maxWeight_foldl_ge_mem :
    ∀ (l : List Server) (acc : Int), ∀ s ∈ l,
      s.weight ≤ l.foldl (fun m s => if m < s.weight then s.weight else m) acc := by
  intro l
  induction l with
  | nil => intro acc s hs; cases hs
  | cons t rest ih =>
    intro acc s hs
    rw [List.foldl_cons]
    rcases List.mem_cons.mp hs with rfl | hsrest
    · refine le_trans ?_ (maxWeight_foldl_ge_acc rest _)
      split <;> omega
    · exact ih _ s hsrest

theorem maxWeight_foldl_attained :
    ∀ (l : List Server) (acc : Int),
      l.foldl (fun m s => if m < s.weight then s.weight else m) acc = acc ∨
      ∃ s ∈ l, l.foldl (fun m s => if m < s.weight then s.weight else m) acc = s.weight := by
  intro l
  induction l with
  | nil => intro acc; exact Or.inl rfl
  | cons t rest ih =>
    intro acc
    rw [List.foldl_cons]
    by_cases hat : acc < t.weight
    · rw [if_pos hat]
      rcases ih t.weight with h | ⟨s, hs, hfs⟩
      · exact Or.inr ⟨t, List.mem_cons_self _ _, h⟩
      · exact Or.inr ⟨s, List.mem_cons_of_mem _ hs, hfs⟩
    · rw [if_neg hat]
      rcases ih acc with h | ⟨s, hs, hfs⟩
      · exact Or.inl h
      · exact Or.inr ⟨s, List.mem_cons_of_mem _ hs, hfs⟩

theorem maxWeight_spec {servers : List Server}
    (hpos : ∃ s ∈ servers, 0 < s.weight) :
    1 ≤ maxWeight servers ∧
    ∃ (t : Nat) (ht : t < servers.length),
      (servers.get ⟨t, ht⟩).weight = maxWeight servers := by
  obtain ⟨p, hp, hpw⟩ := hpos
  have hge : p.weight ≤ maxWeight servers := maxWeight_foldl_ge_mem servers (-1) p hp
  have h1 : 1 ≤ maxWeight servers := by omega
  rcases maxWeight_foldl_attained servers (-1) with h | ⟨s, hs, hfs⟩
  · unfold maxWeight at h1
    omega
  · obtain ⟨⟨t, ht⟩, hget⟩ := List.get_of_mem hs
    exact ⟨h1, t, ht, by rw [hget]; exact hfs.symm⟩

theorem nextStep_shape {servers : List Server} {g m : Int}
    (hN : 0 < servers.length) (hm : m ≠ 0) {st : IterState} (hidx : -1 ≤ st.index) :
    (∃ s st', nextStep servers g m st = .ret (.ok s) st') ∨
    (∃ st', nextStep servers g m st = .cont st' ∧ -1 ≤ st'.index) := by
  have hNi : (0 : Int) < (servers.length : Int) := by exact_mod_cast hN
  obtain ⟨hp0, hpN⟩ := posBounds hNi hidx
  have h0lt : (0 : Int).toNat < servers.length := by simpa using hN
  by_cases hp : (st.index + 1).tmod (servers.length : Int) = 0
  · by_cases hcw : st.currentWeight - g ≤ 0
    · have hstep := nextStep_wrap_reset (m := m) hp hcw hm
      rw [checkSrv_valid_eq (le_refl 0) h0lt] at hstep
      dsimp only at hstep
      by_cases hc : m ≤ (servers.get ⟨(0 : Int).toNat, h0lt⟩).weight
      · rw [if_pos hc] at hstep
        exact Or.inl ⟨_, _, hstep⟩
      · rw [if_neg hc] at hstep
        exact Or.inr ⟨_, hstep, by norm_num⟩
    · have hstep := nextStep_wrap_no_reset (m := m) hp hcw
      rw [checkSrv_valid_eq (le_refl 0) h0lt] at hstep
      dsimp only at hstep
      by_cases hc : st.currentWeight - g ≤ (servers.get ⟨(0 : Int).toNat, h0lt⟩).weight
      · rw [if_pos hc] at hstep
        exact Or.inl ⟨_, _, hstep⟩
      · rw [if_neg hc] at hstep
        exact Or.inr ⟨_, hstep, by norm_num⟩
  · have hstep := nextStep_no_wrap (g := g) (m := m) hp
    have hptn : ((st.index + 1).tmod (servers.length : Int)).toNat < servers.length := by
      omega
    rw [checkSrv_valid_eq hp0 hptn] at hstep
    dsimp only at hstep
    by_cases hc : st.currentWeight ≤
        (servers.get ⟨((st.index + 1).tmod (servers.length : Int)).toNat, hptn⟩).weight
    · rw [if_pos hc] at hstep
      exact Or.inl ⟨_, _, hstep⟩
    · rw [if_neg hc] at hstep
      refine Or.inr ⟨_, hstep, ?_⟩
      dsimp only
      omega

theorem nextLoop_only_ok {servers : List Server} {g m : Int}
    (hN : 0 < servers.length) (hm : m ≠ 0) :
    ∀ (fuel : Nat) (st : IterState), -1 ≤ st.index →
      ∀ out st', nextLoop servers g m fuel st = some (out, st') → ∃ s, out = .ok s := by
  intro fuel
  induction fuel with
  | zero =>
    intro st _ out st' h
    simp [nextLoop] at h
  | succ fuel ih =>
    intro st hidx out st' h
    unfold nextLoop at h
    rcases nextStep_shape hN hm hidx (g := g) with ⟨s, st2, hstep⟩ | ⟨st2, hstep, hidx2⟩
    · rw [hstep] at h
      obtain ⟨rfl, rfl⟩ : NextOut.ok s = out ∧ st2 = st' := by
        constructor <;> · cases h; rfl
      exact ⟨s, rfl⟩
    · rw [hstep] at h
      exact ih st2 hidx2 out st' h

theorem nextServer_loop_ok {r : RRState} {fuel : Nat} {s : Server} {st' : IterState}
    (hne : ¬r.servers.length = 0)
    (hl : nextLoop r.servers (weightGcd r.servers) (maxWeight r.servers) fuel
      ⟨r.index, r.currentWeight⟩ = some (.ok s, st')) :
    nextServer fuel r =
      some (.ok s, { r with index := st'.index, currentWeight := st'.currentWeight }) := by
  unfold nextServer
  rw [if_neg hne]
  dsimp only
  rw [hl]

theorem nextServer_only_ok {r : RRState} (hne : ¬r.servers.length = 0)
    (hm : maxWeight r.servers ≠ 0) (hidx : -1 ≤ r.index) :
    ∀ fuel out r', nextServer fuel r = some (out, r') → ∃ s, out = .ok s := by
  intro fuel out r' h
  unfold nextServer at h
  rw [if_neg hne] at h
  dsimp only at h
  cases hl : nextLoop r.servers (weightGcd r.servers) (maxWeight r.servers) fuel
      ⟨r.index, r.currentWeight⟩ with
  | none => rw [hl] at h; cases h
  | some p =>
    obtain ⟨lo, st'⟩ := p
    obtain ⟨s, rfl⟩ := nextLoop_only_ok (Nat.pos_of_ne_zero hne) hm fuel
      ⟨r.index, r.currentWeight⟩ hidx lo st' hl
    rw [hl] at h
    cases h
    exact ⟨s, rfl⟩

/-- C9 counterexample: the pool state `poolStuck` (one backend of weight 0,
iterator at `(0, 1)`) has non-negative weights, yet `NextServer` never
returns: every iteration of the loop continues with the same state, so no
amount of fuel produces a result. -/
theorem C9_nontermination_counterexample :
    (∀ s ∈ poolStuck.servers, 0 ≤ s.weight) ∧
    ∀ fuel, nextServer fuel poolStuck = none := by
  refine ⟨by decide, ?_⟩
  have hg : weightGcd poolStuck.servers = 0 := by decide
  have hm : maxWeight poolStuck.servers = 0 := by decide
  have hstep : nextStep poolStuck.servers 0 0 ⟨poolStuck.index, poolStuck.currentWeight⟩ =
      .cont ⟨poolStuck.index, poolStuck.currentWeight⟩ := by decide
  have hloop : ∀ f, nextLoop poolStuck.servers 0 0 f
      ⟨poolStuck.index, poolStuck.currentWeight⟩ = none := by
    intro f
    induction f with
    | zero => rfl
    | succ f ih =>
      unfold nextLoop
      rw [hstep]
      exact ih
  intro fuel
  unfold nextServer
  rw [if_neg (by decide)]
  dsimp only
  rw [hg, hm, hloop fuel]

/-- C9 (amended): for every pool state with non-negative weights, iterator
index at least −1 (every reachable index), and either a positive-weight
backend in the rotation or a non-positive `currentWeight` (all reachable
`currentWeight`s of such pools), `NextServer` terminates with a backend or
one of the two errors; the excluded states — all weights 0 with a positive
`currentWeight` — make the loop run forever, and indices below −1 index the
slice out of bounds. -/
theorem C9_next_server_terminates_amended (r : RRState)
    (hw : ∀ s ∈ r.servers, 0 ≤ s.weight)
    (hidx : -1 ≤ r.index)
    (hok : r.currentWeight ≤ 0 ∨ ∃ s ∈ r.servers, 0 < s.weight) :
    ∃ fuel out r', nextServer fuel r = some (out, r') ∧ out ≠ .panicked := by
  by_cases hne : r.servers.length = 0
  · refine ⟨1, .errEmptyPool, r, ?_, by simp⟩
    unfold nextServer
    rw [if_pos hne]
  · rcases Classical.em (∃ s ∈ r.servers, 0 < s.weight) with hpos | hnopos
    · have hN : 0 < r.servers.length := Nat.pos_of_ne_zero hne
      have hg := weightGcd_pos hw hpos
      obtain ⟨hm1, t, ht, hteq⟩ := maxWeight_spec hpos
      obtain ⟨fuel, s, st', hl⟩ := loopTerm hN hg hm1 ⟨t, ht, hteq⟩
        ⟨r.index, r.currentWeight⟩ hidx
      exact ⟨fuel, .ok s, _, nextServer_loop_ok hne hl, by simp⟩
    · have hcw : r.currentWeight ≤ 0 := hok.resolve_right hnopos
      have hnil : r.servers ≠ [] := by
        intro h
        exact hne (by rw [h]; rfl)
      have hz : ∀ s ∈ r.servers, s.weight = 0 := by
        intro s hs
        have h1 := hw s hs
        by_contra hne2
        exact hnopos ⟨s, hs, by omega⟩
      have hgz := weightGcd_all_zero hnil hz
      have hmz := maxWeight_all_zero hnil hz
      have hN : 0 < r.servers.length := Nat.pos_of_ne_zero hne
      have hNi : (0 : Int) < (r.servers.length : Int) := by exact_mod_cast hN
      obtain ⟨hp0, hpN⟩ := posBounds hNi hidx
      by_cases hp : (r.index + 1).tmod (r.servers.length : Int) = 0
      · have hstep : nextStep r.servers (weightGcd r.servers) (maxWeight r.servers)
            ⟨r.index, r.currentWeight⟩ = .ret .errZeroWeight ⟨0, maxWeight r.servers⟩ := by
          apply nextStep_wrap_err hp ?_ hmz
          rw [hgz]
          dsimp only
          omega
        refine ⟨1, .errZeroWeight,
          { r with index := 0, currentWeight := maxWeight r.servers }, ?_, by simp⟩
        unfold nextServer
        rw [if_neg hne]
        dsimp only
        unfold nextLoop
        rw [hstep]
      · have hptn : ((r.index + 1).tmod ((r.servers.length : Nat) : Int)).toNat <
            r.servers.length := by
          omega
        have hstep := @nextStep_no_wrap r.servers (weightGcd r.servers)
          (maxWeight r.servers) ⟨r.index, r.currentWeight⟩ hp
        rw [checkSrv_valid_eq hp0 hptn] at hstep
        dsimp only at hstep
        have hwt : (r.servers.get ⟨((r.index + 1).tmod ((r.servers.length : Nat) : Int)).toNat,
            hptn⟩).weight = 0 := hz _ (List.get_mem _ _ _)
        rw [if_pos (by rw [hwt]; exact hcw)] at hstep
        refine ⟨1,
          .ok (r.servers.get ⟨((r.index + 1).tmod ((r.servers.length : Nat) : Int)).toNat, hptn⟩),
          { r with index := (r.index + 1).tmod ((r.servers.length : Nat) : Int),
                   currentWeight := r.currentWeight }, ?_, by simp⟩
        unfold nextServer
        rw [if_neg hne]
        dsimp only
        unfold nextLoop
        rw [hstep]

/-- Witness for the amended C9 at the concrete three-backend pool. -/
theorem C9_next_server_terminates_amended_witness :
    (∀ s ∈ pool123.servers, 0 ≤ s.weight) ∧ -1 ≤ pool123.index ∧
    ∃ fuel out r', nextServer fuel pool123 = some (out, r') ∧ out ≠ .panicked := by
  refine ⟨by decide, by decide, ?_⟩
  exact C9_next_server_terminates_amended pool123 (by decide) (by decide)
    (Or.inl (by decide))

/-- C3 counterexample: on the reachable all-zero-weight pool `poolZeroZero`
(both backends updated to weight 0, iterator reset), the first `NextServer`
call fails with the zero-weight error, but the second call — the pool still
non-empty with every backend at weight 0 — returns backend B instead of
failing, contradicting the claimed error dichotomy. -/
theorem C3_second_call_returns_backend_counterexample :
    (∀ s ∈ poolZeroZero.servers, s.weight = 0) ∧
    nextServer 2 poolZeroZero =
      some (.errZeroWeight, { poolZeroZero with index := 0, currentWeight := 0 }) ∧
    nextServer 2 { poolZeroZero with index := 0, currentWeight := 0 } =
      some (.ok { url := urlB, weight := 0 },
        { poolZeroZero with index := 1, currentWeight := 0 }) := by
  refine ⟨by decide, by decide, by decide⟩

/-- C3 (amended): from the reset iterator state (`index = -1`,
`currentWeight = 0`, the state every mutation leaves), `NextServer` fails
with the empty-pool error exactly when the rotation is empty, fails with the
zero-weight error when the rotation is non-empty and every backend has
weight 0, and when some backend has positive weight it returns a backend and
never an error; from non-reset (but reachable) states a later call on an
all-zero pool can also return a zero-weight backend. -/
theorem C3_next_server_cases_amended (r : RRState)
    (hw : ∀ s ∈ r.servers, 0 ≤ s.weight)
    (hidx : r.index = -1) (hcw : r.currentWeight = 0) :
    (r.servers = [] → nextServer 1 r = some (.errEmptyPool, r)) ∧
    (r.servers ≠ [] → (∀ s ∈ r.servers, s.weight = 0) →
      nextServer 1 r = some (.errZeroWeight, { r with index := 0, currentWeight := 0 })) ∧
    ((∃ s ∈ r.servers, 0 < s.weight) →
      (∃ fuel s r', nextServer fuel r = some (.ok s, r')) ∧
      ∀ fuel out r', nextServer fuel r = some (out, r') → ∃ s, out = .ok s) := by
  refine ⟨?_, ?_, ?_⟩
  · intro hnil
    unfold nextServer
    rw [if_pos (by rw [hnil]; rfl)]
  · intro hne hz
    exact nextServer_all_zero_from_reset hne hz hidx hcw
  · intro hpos
    have hne : ¬r.servers.length = 0 := by
      obtain ⟨s, hs, _⟩ := hpos
      intro h
      rw [List.length_eq_zero] at h
      rw [h] at hs
      cases hs
    have hN : 0 < r.servers.length := Nat.pos_of_ne_zero hne
    have hg := weightGcd_pos hw hpos
    obtain ⟨hm1, t, ht, hteq⟩ := maxWeight_spec hpos
    constructor
    · obtain ⟨fuel, s, st', hl⟩ := loopTerm hN hg hm1 ⟨t, ht, hteq⟩
        ⟨r.index, r.currentWeight⟩ (by dsimp only; omega)
      exact ⟨fuel, s, _, nextServer_loop_ok hne hl⟩
    · exact nextServer_only_ok hne (by omega) (by omega)

/-- Witness for the amended C3 at concrete pools: the empty pool errors
empty, the all-zero pool errors zero-weight, and the 1-2-3 pool returns a
backend. -/
theorem C3_next_server_cases_amended_witness :
    nextServer 1 (newRoundRobin none) = some (.errEmptyPool, newRoundRobin none) ∧
    nextServer 1 poolZeroZero =
      some (.errZeroWeight, { poolZeroZero with index := 0, currentWeight := 0 }) ∧
    ∃ fuel s r', nextServer fuel pool123 = some (.ok s, r') := by
  refine ⟨?_, ?_, ?_⟩
  · exact (C3_next_server_cases_amended (newRoundRobin none) (by decide) (by decide)
      (by decide)).1 (by decide)
  · exact (C3_next_server_cases_amended poolZeroZero (by decide) (by decide)
      (by decide)).2.1 (by decide) (by decide)
  · exact ((C3_next_server_cases_amended pool123 (by decide) (by decide)
      (by decide)).2.2 (by decide)).1

theorem modifyHead_append_of_ne_nil {α : Type} (f : α → α) :
    ∀ (l1 l2 : List α), l1 ≠ [] → (l1 ++ l2).modifyHead f = l1.modifyHead f ++ l2 := by
  intro l1 l2 h
  cases l1 with
  | nil => exact absurd rfl h
  | cons a t => rfl

theorem cleanStep_empty (ro : Bool) (acc : List (List Char)) : cleanStep ro acc [] = acc := by
  unfold cleanStep
  rw [if_pos (Or.inl rfl)]

theorem foldl_cleanStep_skip_empty (ro : Bool) :
    ∀ (L1 L2 : List (List Char)) (acc : List (List Char)),
      (L1 ++ [] :: L2).foldl (cleanStep ro) acc = (L1 ++ L2).foldl (cleanStep ro) acc := by
  intro L1
  induction L1 with
  | nil =>
    intro L2 acc
    simp only [List.nil_append, List.foldl_cons, cleanStep_empty]
  | cons e t ih =>
    intro L2 acc
    simp only [List.cons_append, List.foldl_cons]
    exact ih L2 (cleanStep ro acc e)

theorem splitOn_append_sep {α : Type} [DecidableEq α] (c : α) :
    ∀ (x y : List α), (x ++ c :: y).splitOn c = x.splitOn c ++ y.splitOn c := by
  intro x y
  induction x with
  | nil => simp [List.splitOn, List.splitOnP_cons]
  | cons a t ih =>
    simp only [List.cons_append, List.splitOn, List.splitOnP_cons] at ih ⊢
    by_cases ha : (a == c) = true
    · rw [if_pos ha, if_pos ha, ih]
      rfl
    · rw [if_neg ha, if_neg ha, ih,
        modifyHead_append_of_ne_nil _ _ _ (List.splitOnP_ne_nil _ _)]

theorem clean_extra_slash_mid (x y : List Char) :
    goPathClean ⟨x ++ '/' :: '/' :: y⟩ = goPathClean ⟨x ++ '/' :: y⟩ := by
  have hhead : (x ++ '/' :: '/' :: y).head? = (x ++ '/' :: y).head? := by
    cases x <;> rfl
  have hsplit : (x ++ '/' :: '/' :: y).splitOn '/' = x.splitOn '/' ++ ([] :: y.splitOn '/') := by
    rw [show x ++ '/' :: '/' :: y = x ++ '/' :: ('/' :: y) from rfl,
      splitOn_append_sep '/' x ('/' :: y)]
    congr 1
  have hsplit2 : (x ++ '/' :: y).splitOn '/' = x.splitOn '/' ++ y.splitOn '/' :=
    splitOn_append_sep '/' x y
  have hstack : ∀ b : Bool,
      ((x ++ '/' :: '/' :: y).splitOn '/').foldl (cleanStep b) [] =
      ((x ++ '/' :: y).splitOn '/').foldl (cleanStep b) [] := by
    intro b
    rw [hsplit, hsplit2, foldl_cleanStep_skip_empty]
  have h1 : ¬(x ++ '/' :: '/' :: y = []) := by simp
  have h2 : ¬(x ++ '/' :: y = []) := by simp
  unfold goPathClean
  dsimp only
  rw [if_neg h1, if_neg h2, hhead, hstack]

theorem goHasSuffix_slash_iff {s : String} :
    goHasSuffix s "/" = true ↔ ∃ l, s.data = l ++ ['/'] := by
  unfold goHasSuffix
  rw [List.isSuffixOf_iff_suffix]
  constructor
  · rintro ⟨t, ht⟩
    exact ⟨t, ht.symm⟩
  · rintro ⟨l, hl⟩
    exact ⟨l, hl.symm⟩

theorem goPathJoin_extra_slash (s b : String) (hs : goHasSuffix s "/" = true) :
    goPathJoin (s ++ "/") b = goPathJoin s b := by
  obtain ⟨l, hl⟩ := goHasSuffix_slash_iff.mp hs
  have hdata : (s ++ "/").data = l ++ ['/', '/'] := by
    rw [String.data_append, hl]
    simp
  have hne1 : ¬(s ++ "/").data = [] := by
    rw [hdata]
    simp
  have hne2 : ¬s.data = [] := by
    rw [hl]
    simp
  unfold goPathJoin
  rw [if_neg hne1, if_neg hne2]
  by_cases hb : b.data = []
  · rw [if_pos hb, if_pos hb]
    have e1 : s ++ "/" = ⟨l ++ '/' :: '/' :: []⟩ := String.ext (by rw [hdata])
    have e2 : s = ⟨l ++ '/' :: []⟩ := String.ext (by rw [hl])
    rw [e1, e2]
    exact clean_extra_slash_mid l []
  · rw [if_neg hb, if_neg hb]
    have e1 : (⟨(s ++ "/").data ++ '/' :: b.data⟩ : String) =
        ⟨l ++ '/' :: '/' :: ('/' :: b.data)⟩ := by
      apply String.ext
      show (s ++ "/").data ++ '/' :: b.data = l ++ '/' :: '/' :: ('/' :: b.data)
      rw [hdata]
      simp
    have e2 : (⟨s.data ++ '/' :: b.data⟩ : String) = ⟨l ++ '/' :: ('/' :: b.data)⟩ := by
      apply String.ext
      show s.data ++ '/' :: b.data = l ++ '/' :: ('/' :: b.data)
      rw [hl]
      simp
    rw [e1, e2]
    exact clean_extra_slash_mid l ('/' :: b.data)

theorem rewritePath_eq_spec (s b : String) :
    rewritePath s b = specJoinPreserveSlash s b := by
  unfold rewritePath specJoinPreserveSlash
  dsimp only
  by_cases hs : goHasSuffix s "/" = true
  · rw [if_pos hs, goPathJoin_extra_slash s b hs]
  · rw [if_neg hs]

theorem splitOn_sep_not_mem {α : Type} [DecidableEq α] (c : α) :
    ∀ (l : List α), ∀ e ∈ l.splitOn c, c ∉ e := by
  intro l
  induction l with
  | nil =>
    intro e he
    simp only [List.splitOn_nil, List.mem_singleton] at he
    subst he
    exact List.not_mem_nil c
  | cons a t ih =>
    intro e he
    simp only [List.splitOn, List.splitOnP_cons] at he
    by_cases ha : (a == c) = true
    · rw [if_pos ha] at he
      rcases List.mem_cons.mp he with rfl | hrest
      · exact List.not_mem_nil c
      · exact ih e hrest
    · rw [if_neg ha] at he
      cases hsp : t.splitOnP (· == c) with
      | nil => exact absurd hsp (List.splitOnP_ne_nil _ _)
      | cons h0 t0 =>
        rw [hsp] at he
        simp only [List.modifyHead] at he
        have hih : ∀ e ∈ h0 :: t0, c ∉ e := by
          intro e' he'
          apply ih
          show e' ∈ t.splitOn c
          rw [List.splitOn, hsp]
          exact he'
        rcases List.mem_cons.mp he with rfl | hrest
        · intro hc
          rcases List.mem_cons.mp hc with rfl | hc0
          · exact absurd rfl (beq_eq_false_iff_ne.mp (Bool.eq_false_iff.mpr ha))
          · exact hih h0 (List.mem_cons_self _ _) hc0
        · exact hih e (List.mem_cons_of_mem _ hrest)

theorem cleanStep_invariant {ro : Bool} {acc : List (List Char)} {seg : List Char}
    (hacc : ∀ e ∈ acc, e ≠ [] ∧ e ≠ ['.'] ∧ '/' ∉ e) (hseg : '/' ∉ seg) :
    ∀ e ∈ cleanStep ro acc seg, e ≠ [] ∧ e ≠ ['.'] ∧ '/' ∉ e := by
  unfold cleanStep
  by_cases h1 : seg = [] ∨ seg = ['.']
  · rw [if_pos h1]
    exact hacc
  · rw [if_neg h1]
    by_cases h2 : seg = dotdot
    · rw [if_pos h2]
      cases acc with
      | nil =>
        by_cases hro : ro = true
        · simp only [hro, if_true]
          intro e he
          cases he
        · have : ro = false := by
            cases ro
            · rfl
            · exact absurd rfl hro
          simp only [this, Bool.false_eq_true, if_false]
          intro e he
          rcases List.mem_singleton.mp he with rfl
          refine ⟨by simp [dotdot], by simp [dotdot], by simp [dotdot]⟩
      | cons top rest =>
        dsimp only
        by_cases h3 : ro = false ∧ top = dotdot
        · rw [if_pos h3]
          intro e he
          rcases List.mem_cons.mp he with rfl | hrest
          · refine ⟨by simp [dotdot], by simp [dotdot], by simp [dotdot]⟩
          · exact hacc e hrest
        · rw [if_neg h3]
          intro e he
          exact hacc e (List.mem_cons_of_mem _ he)
    · rw [if_neg h2]
      intro e he
      rcases List.mem_cons.mp he with rfl | hrest
      · push_neg at h1
        exact ⟨h1.1, h1.2, hseg⟩
      · exact hacc e hrest

theorem cleanStack_invariant (ro : Bool) :
    ∀ (segs : List (List Char)) (acc : List (List Char)),
      (∀ e ∈ acc, e ≠ [] ∧ e ≠ ['.'] ∧ '/' ∉ e) →
      (∀ seg ∈ segs, '/' ∉ seg) →
      ∀ e ∈ segs.foldl (cleanStep ro) acc, e ≠ [] ∧ e ≠ ['.'] ∧ '/' ∉ e := by
  intro segs
  induction segs with
  | nil => intro acc hacc _; exact hacc
  | cons seg rest ih =>
    intro acc hacc hsegs
    rw [List.foldl_cons]
    exact ih _ (cleanStep_invariant hacc (hsegs seg (List.mem_cons_self _ _)))
      (fun s hs => hsegs s (List.mem_cons_of_mem _ hs))

theorem joinSegs_eq_intercalate :
    ∀ L : List (List Char), joinSegs L = List.intercalate ['/'] L := by
  intro L
  induction L with
  | nil => rfl
  | cons e rest ih =>
    cases rest with
    | nil => simp [joinSegs, List.intercalate]
    | cons f t =>
      show e ++ '/' :: joinSegs (f :: t) = List.intercalate ['/'] (e :: f :: t)
      rw [ih]
      simp [List.intercalate, List.intersperse]

theorem noDoubleSlash_iff_chain : ∀ l : List Char,
    noDoubleSlash l = true ↔ List.Chain' (fun a b => ¬(a = '/' ∧ b = '/')) l := by
  intro l
  match l with
  | [] => simp [noDoubleSlash]
  | [a] => simp [noDoubleSlash]
  | a :: b :: rest =>
    rw [List.chain'_cons]
    rw [show noDoubleSlash (a :: b :: rest) =
      (!(a == '/' && b == '/') && noDoubleSlash (b :: rest)) from rfl]
    rw [Bool.and_eq_true, noDoubleSlash_iff_chain (b :: rest)]
    constructor
    · rintro ⟨h1, h2⟩
      refine ⟨?_, h2⟩
      rintro ⟨rfl, rfl⟩
      simp at h1
    · rintro ⟨h1, h2⟩
      refine ⟨?_, h2⟩
      simp only [Bool.not_and, Bool.or_eq_true, Bool.not_eq_true', beq_eq_false_iff_ne]
      by_cases ha : a = '/'
      · right
        subst ha
        intro hb
        exact h1 ⟨rfl, by simpa using hb⟩
      · left
        exact ha

theorem chain_slash_of_not_mem {l : List Char} (h : '/' ∉ l) :
    List.Chain' (fun a b => ¬(a = '/' ∧ b = '/')) l := by
  induction l with
  | nil => exact List.chain'_nil
  | cons a t ih =>
    rw [List.chain'_cons']
    refine ⟨?_, ih (fun hc => h (List.mem_cons_of_mem _ hc))⟩
    intro b _ hab
    apply h
    rw [hab.1]
    exact List.mem_cons_self _ _

theorem joinSegs_head {f : List Char} (t : List (List Char)) (hf : f ≠ []) :
    (joinSegs (f :: t)).head? = f.head? := by
  cases t with
  | nil => rfl
  | cons g u =>
    show (f ++ '/' :: joinSegs (g :: u)).head? = f.head?
    cases f with
    | nil => exact absurd rfl hf
    | cons c cs => rfl

theorem chain_joinSegs :
    ∀ L : List (List Char), (∀ e ∈ L, e ≠ [] ∧ '/' ∉ e) →
      List.Chain' (fun a b => ¬(a = '/' ∧ b = '/')) (joinSegs L) := by
  intro L
  induction L with
  | nil => intro _; exact List.chain'_nil
  | cons e t ih =>
    intro h
    cases t with
    | nil => exact chain_slash_of_not_mem (h e (List.mem_cons_self _ _)).2
    | cons f u =>
      show List.Chain' _ (e ++ '/' :: joinSegs (f :: u))
      rw [List.chain'_append]
      refine ⟨chain_slash_of_not_mem (h e (List.mem_cons_self _ _)).2, ?_, ?_⟩
      · rw [List.chain'_cons']
        refine ⟨?_, ih (fun x hx => h x (List.mem_cons_of_mem _ hx))⟩
        intro b hb hab
        have hf := h f (List.mem_cons_of_mem _ (List.mem_cons_self _ _))
        rw [joinSegs_head u hf.1] at hb
        apply hf.2
        rw [← hab.2]
        exact List.mem_of_mem_head? hb
      · intro x hx y _ hxy
        have hmem : x ∈ e := List.mem_of_mem_getLast? hx
        apply (h e (List.mem_cons_self _ _)).2
        rw [hxy.1] at hmem
        exact hmem

theorem chain_rooted {L : List (List Char)} (h : ∀ e ∈ L, e ≠ [] ∧ '/' ∉ e) :
    List.Chain' (fun a b => ¬(a = '/' ∧ b = '/')) ('/' :: joinSegs L) := by
  rw [List.chain'_cons']
  refine ⟨?_, chain_joinSegs L h⟩
  intro b hb hab
  cases L with
  | nil => cases hb
  | cons f t =>
    have hf := h f (List.mem_cons_self _ _)
    rw [joinSegs_head t hf.1] at hb
    apply hf.2
    have := List.mem_of_mem_head? hb
    rw [hab.2] at this
    exact this

theorem chain_append_slash {x : List Char}
    (h : List.Chain' (fun a b => ¬(a = '/' ∧ b = '/')) x)
    (hlast : x.getLast? ≠ some '/') :
    List.Chain' (fun a b => ¬(a = '/' ∧ b = '/')) (x ++ ['/']) := by
  rw [List.chain'_append]
  refine ⟨h, List.chain'_singleton _, ?_⟩
  intro p hp q _ hpq
  apply hlast
  rw [hpq.1] at hp
  exact hp

theorem exists_append_of_getLast {α : Type} {c : α} :
    ∀ {x : List α}, x.getLast? = some c → ∃ l, x = l ++ [c] := by
  intro x
  induction x with
  | nil => intro h; cases h
  | cons a t ih =>
    intro h
    cases t with
    | nil =>
      rw [List.getLast?_singleton] at h
      refine ⟨[], ?_⟩
      rw [Option.some_inj.mp h]
      rfl
    | cons b u =>
      rw [List.getLast?_cons_cons] at h
      obtain ⟨l, hl⟩ := ih h
      exact ⟨a :: l, by rw [hl]; rfl⟩

theorem goPathClean_cases (p : String) (hp : ¬p.data = []) :
    ∃ stack : List (List Char),
      (∀ e ∈ stack, e ≠ [] ∧ e ≠ ['.'] ∧ '/' ∉ e) ∧
      ((goPathClean p).data = '/' :: joinSegs stack ∨
       goPathClean p = "." ∨
       (stack ≠ [] ∧ (goPathClean p).data = joinSegs stack)) := by
  refine ⟨((p.data.splitOn '/').foldl
      (cleanStep (decide (p.data.head? = some '/'))) []).reverse, ?_, ?_⟩
  · intro e he
    exact cleanStack_invariant _ _ [] (fun x hx => absurd hx (List.not_mem_nil x))
      (splitOn_sep_not_mem '/' p.data) e (List.mem_reverse.mp he)
  · unfold goPathClean
    rw [if_neg hp]
    dsimp only
    by_cases hro : p.data.head? = some '/'
    · rw [if_pos hro]
      left
      rfl
    · rw [if_neg hro]
      by_cases hnil : ((p.data.splitOn '/').foldl
          (cleanStep (decide (p.data.head? = some '/'))) []).reverse = []
      · rw [if_pos hnil]
        right
        left
        rfl
      · rw [if_neg hnil]
        right
        right
        exact ⟨hnil, rfl⟩

theorem goPathClean_noDoubleSlash (p : String) :
    noDoubleSlash (goPathClean p).data = true := by
  rw [noDoubleSlash_iff_chain]
  by_cases hp : p.data = []
  · have hdot : goPathClean p = "." := by
      unfold goPathClean
      rw [if_pos hp]
    rw [hdot]
    exact List.chain'_singleton _
  · obtain ⟨stack, hinv, hd⟩ := goPathClean_cases p hp
    rcases hd with h | h | ⟨_, h⟩
    · rw [h]
      exact chain_rooted (fun e he => ⟨(hinv e he).1, (hinv e he).2.2⟩)
    · rw [h]
      exact List.chain'_singleton _
    · rw [h]
      exact chain_joinSegs stack (fun e he => ⟨(hinv e he).1, (hinv e he).2.2⟩)

theorem splitOn_joinSegs {L : List (List Char)} (hne : L ≠ [])
    (hinv : ∀ e ∈ L, '/' ∉ e) : (joinSegs L).splitOn '/' = L := by
  rw [joinSegs_eq_intercalate]
  exact List.splitOn_intercalate L '/' hinv hne

theorem goPathClean_no_dot_segment (p : String) (hne : goPathClean p ≠ ".") :
    ['.'] ∉ (goPathClean p).data.splitOn '/' := by
  by_cases hp : p.data = []
  · exfalso
    apply hne
    unfold goPathClean
    rw [if_pos hp]
  · obtain ⟨stack, hinv, hd⟩ := goPathClean_cases p hp
    rcases hd with h | h | ⟨hsne, h⟩
    · rw [h]
      have hsp : ('/' :: joinSegs stack).splitOn '/' = [] :: (joinSegs stack).splitOn '/' := by
        simp [List.splitOn, List.splitOnP_cons]
      rw [hsp]
      intro hmem
      rcases List.mem_cons.mp hmem with hcon | hmem2
      · exact absurd hcon (by simp)
      · cases stack with
        | nil =>
          simp [joinSegs, List.splitOn, List.splitOnP, List.splitOnP.go] at hmem2
        | cons f t =>
          rw [splitOn_joinSegs (by simp) (fun e he => (hinv e he).2.2)] at hmem2
          exact (hinv _ hmem2).2.1 rfl
    · exact absurd h hne
    · rw [h]
      cases stack with
      | nil => exact absurd rfl hsne
      | cons f t =>
        rw [splitOn_joinSegs (by simp) (fun e he => (hinv e he).2.2)]
        intro hmem
        exact (hinv _ hmem).2.1 rfl

theorem goPathJoin_noDoubleSlash (a b : String) :
    noDoubleSlash (goPathJoin a b).data = true := by
  unfold goPathJoin
  by_cases ha : a.data = []
  · rw [if_pos ha]
    by_cases hb : b.data = []
    · rw [if_pos hb]
      rfl
    · rw [if_neg hb]
      exact goPathClean_noDoubleSlash b
  · rw [if_neg ha]
    by_cases hb : b.data = []
    · rw [if_pos hb]
      exact goPathClean_noDoubleSlash a
    · rw [if_neg hb]
      exact goPathClean_noDoubleSlash _

theorem goPathJoin_no_dot (a b : String) (hne : goPathJoin a b ≠ ".") :
    ['.'] ∉ (goPathJoin a b).data.splitOn '/' := by
  unfold goPathJoin at hne ⊢
  by_cases ha : a.data = []
  · rw [if_pos ha] at hne ⊢
    by_cases hb : b.data = []
    · rw [if_pos hb]
      intro hmem
      simp [List.splitOn, List.splitOnP, List.splitOnP.go] at hmem
    · rw [if_neg hb] at hne ⊢
      exact goPathClean_no_dot_segment b hne
  · rw [if_neg ha] at hne ⊢
    by_cases hb : b.data = []
    · rw [if_pos hb] at hne ⊢
      exact goPathClean_no_dot_segment a hne
    · rw [if_neg hb] at hne ⊢
      exact goPathClean_no_dot_segment _ hne

theorem specJoin_eq (s b : String) :
    specJoinPreserveSlash s b = goPathJoin s b ∨
    (goHasSuffix (goPathJoin s b) "/" = false ∧
     specJoinPreserveSlash s b = goPathJoin s b ++ "/") := by
  unfold specJoinPreserveSlash
  dsimp only
  by_cases hc : (goHasSuffix b "/" && !goHasSuffix (goPathJoin s b) "/") = true
  · right
    refine ⟨?_, by rw [if_pos hc]⟩
    have h2 := (Bool.and_eq_true _ _).mp hc |>.2
    simpa using h2
  · left
    rw [if_neg hc]

theorem specJoin_trailing (s b : String) (h : goHasSuffix b "/" = true) :
    goHasSuffix (specJoinPreserveSlash s b) "/" = true := by
  unfold specJoinPreserveSlash
  dsimp only
  by_cases hj : goHasSuffix (goPathJoin s b) "/" = true
  · have hc : (goHasSuffix b "/" && !goHasSuffix (goPathJoin s b) "/") = false := by
      rw [hj]
      simp
    rw [if_neg (by simp [hc])]
    exact hj
  · have hc : (goHasSuffix b "/" && !goHasSuffix (goPathJoin s b) "/") = true := by
      rw [h, Bool.eq_false_iff.mpr hj]
      rfl
    rw [if_pos hc]
    apply goHasSuffix_slash_iff.mpr
    refine ⟨(goPathJoin s b).data, ?_⟩
    rw [String.data_append]

theorem specJoin_noDoubleSlash (s b : String) :
    noDoubleSlash (specJoinPreserveSlash s b).data = true := by
  rcases specJoin_eq s b with h | ⟨hj, h⟩
  · rw [h]
    exact goPathJoin_noDoubleSlash s b
  · rw [h]
    rw [noDoubleSlash_iff_chain, String.data_append]
    show List.Chain' _ ((goPathJoin s b).data ++ ['/'])
    apply chain_append_slash
    · rw [← noDoubleSlash_iff_chain]
      exact goPathJoin_noDoubleSlash s b
    · intro hlast
      obtain ⟨l, hl⟩ := exists_append_of_getLast hlast
      have : goHasSuffix (goPathJoin s b) "/" = true :=
        goHasSuffix_slash_iff.mpr ⟨l, hl⟩
      rw [this] at hj
      cases hj

theorem specJoin_no_dot (s b : String) (hne : goPathJoin s b ≠ ".") :
    ['.'] ∉ (specJoinPreserveSlash s b).data.splitOn '/' := by
  rcases specJoin_eq s b with h | ⟨hj, h⟩
  · rw [h]
    exact goPathJoin_no_dot s b hne
  · rw [h]
    rw [String.data_append]
    have hsp : ((goPathJoin s b).data ++ ("/" : String).data).splitOn '/' =
        (goPathJoin s b).data.splitOn '/' ++ ([] : List Char).splitOn '/' := by
      exact splitOn_append_sep '/' (goPathJoin s b).data []
    rw [hsp]
    intro hmem
    rcases List.mem_append.mp hmem with hmem1 | hmem2
    · exact goPathJoin_no_dot s b hne hmem1
    · simp [List.splitOn, List.splitOnP, List.splitOnP.go] at hmem2

theorem serveFinish_forwarded {fuel : Nat} {r : RRState} {req : Request}
    {srv0 : Option Server} {stuck : Bool} {s : Server} {u : URL} {st : RRState}
    (h : serveFinish fuel r req srv0 stuck = some (.forwarded s u, st)) :
    u = rewriteURL s req := by
  unfold serveFinish at h
  by_cases hst : stuck = true
  · rw [if_pos hst] at h
    cases srv0 with
    | none => simp at h
    | some s0 =>
      simp only [Option.some.injEq, Prod.mk.injEq] at h
      obtain ⟨h1, _⟩ := h
      injection h1 with hs hu
      rw [← hu, hs]
  · rw [if_neg hst] at h
    cases hns : nextServer fuel r with
    | none =>
      rw [hns] at h
      cases h
    | some pr =>
      rw [hns] at h
      obtain ⟨res, r'⟩ := pr
      cases res with
      | ok s0 =>
        simp only [Option.some.injEq, Prod.mk.injEq] at h
        obtain ⟨h1, _⟩ := h
        injection h1 with hs hu
        rw [← hu, hs]
      | errEmptyPool => simp at h
      | errZeroWeight => simp at h
      | panicked => simp at h

theorem serveHTTP_shape (fuel : Nat) (r : RRState) (req : Request) :
    serveHTTP fuel r req = some (.errorHandled, r) ∨
    serveHTTP fuel r req = some (.panicked, r) ∨
    ∃ srv0 stuck, serveHTTP fuel r req = serveFinish fuel r req srv0 stuck := by
  unfold serveHTTP
  dsimp only
  cases hss : r.ss with
  | none =>
    dsimp only
    cases hj : req.jsid with
    | none =>
      right; right
      exact ⟨none, false, rfl⟩
    | some sj =>
      dsimp only
      cases hls : lookupSticky r.stickyServers sj.groupID with
      | none =>
        right; right
        exact ⟨none, false, rfl⟩
      | some s =>
        dsimp only
        cases hrt : s.routing with
        | none =>
          right; left
          rfl
        | some rt =>
          right; right
          exact ⟨some s, false || rt.hmacKeys.any sj.verify, rfl⟩
  | some name =>
    dsimp only
    cases hgb : getBackend name req r.servers with
    | error e =>
      left
      rfl
    | ok o =>
      cases o with
      | none =>
        dsimp only
        cases hj : req.jsid with
        | none =>
          right; right
          exact ⟨none, false, rfl⟩
        | some sj =>
          dsimp only
          cases hls : lookupSticky r.stickyServers sj.groupID with
          | none =>
            right; right
            exact ⟨none, false, rfl⟩
          | some s =>
            dsimp only
            cases hrt : s.routing with
            | none =>
              right; left
              rfl
            | some rt =>
              right; right
              exact ⟨some s, false || rt.hmacKeys.any sj.verify, rfl⟩
      | some scook =>
        dsimp only
        cases hj : req.jsid with
        | none =>
          right; right
          exact ⟨some scook, true, rfl⟩
        | some sj =>
          dsimp only
          cases hls : lookupSticky r.stickyServers sj.groupID with
          | none =>
            right; right
            exact ⟨none, true, rfl⟩
          | some s =>
            dsimp only
            cases hrt : s.routing with
            | none =>
              right; left
              rfl
            | some rt =>
              right; right
              exact ⟨some s, true || rt.hmacKeys.any sj.verify, rfl⟩

theorem serveHTTP_forwarded {fuel : Nat} {r : RRState} {req : Request}
    {s : Server} {u : URL} {st : RRState}
    (h : serveHTTP fuel r req = some (.forwarded s u, st)) :
    u = rewriteURL s req := by
  rcases serveHTTP_shape fuel r req with hsh | hsh | ⟨srv0, stuck, hsh⟩
  · rw [hsh] at h
    simp at h
  · rw [hsh] at h
    simp at h
  · rw [hsh] at h
    exact serveFinish_forwarded h

/-- C7: when the selected backend has `pathRewrite` set, the forwarded URL's
path is the lexical join of the backend's URL path and the incoming request
path with a trailing slash of the incoming path preserved
(`specJoinPreserveSlash`), the incoming query string is retained unchanged,
and the join is filesystem-style: the result never contains a double slash,
and (unless the join collapses to `.`) never retains a `.` segment. -/
theorem C7_path_rewrite_join (fuel : Nat) (r : RRState) (req : Request)
    (srv : Server) (u : URL) (st : RRState)
    (h : serveHTTP fuel r req = some (.forwarded srv u, st))
    (hpr : srv.pathRewrite = true) :
    u.path = specJoinPreserveSlash srv.url.path req.url.path ∧
    u.rawQuery = req.url.rawQuery ∧
    (goHasSuffix req.url.path "/" = true → goHasSuffix u.path "/" = true) ∧
    noDoubleSlash u.path.data = true ∧
    (goPathJoin srv.url.path req.url.path ≠ "." →
      ['.'] ∉ u.path.data.splitOn '/') := by
  have hu : u = rewriteURL srv req := serveHTTP_forwarded h
  subst hu
  unfold rewriteURL
  dsimp only
  rw [if_pos hpr]
  dsimp only
  rw [rewritePath_eq_spec]
  exact ⟨rfl, rfl, fun hb => specJoin_trailing _ _ hb, specJoin_noDoubleSlash _ _,
    fun hne => specJoin_no_dot _ _ hne⟩

theorem C7_path_rewrite_join_witness :
    (rewriteURL srvRw reqRw).path =
        specJoinPreserveSlash srvRw.url.path reqRw.url.path ∧
    (rewriteURL srvRw reqRw).rawQuery = reqRw.url.rawQuery ∧
    (goHasSuffix reqRw.url.path "/" = true →
      goHasSuffix (rewriteURL srvRw reqRw).path "/" = true) ∧
    noDoubleSlash (rewriteURL srvRw reqRw).path.data = true ∧
    (goPathJoin srvRw.url.path reqRw.url.path ≠ "." →
      ['.'] ∉ (rewriteURL srvRw reqRw).path.data.splitOn '/') :=
  C7_path_rewrite_join 4 poolRw reqRw srvRw (rewriteURL srvRw reqRw) poolRwStepped
    (by decide) (by decide)
